import Mathlib

/-!
# Verification of the hubble sync core

A shallow embedding of the repository's sync subsystem:

* `trieNode.ts` (`TrieNode`: insert / delete / exists / getSnapshot / getNode /
  getAllValues, the children map kept sorted by the JS default `Array.sort()`),
* `syncId.ts` (`pkFromSyncId`),
* `syncEngine.ts` (`fetchMissingHashesByNode` / `fetchMissingHashesByPrefix`,
  `syncUserAndRetryMessage`).

Bytes are modelled as `List Nat`.  BLAKE3-160 is an external library
(`@noble/hashes`), so digests are modelled as the free collision-free
idealization `Digest`: `hashBytes bs` stands for the digest of the raw byte
string `bs`, and `hashCat ds` for the digest of the concatenation of the
20-byte digests `ds`.  The one real collision of BLAKE3 that the code relies
on — hashing an empty byte string gives the same digest no matter how the
empty input arose — is restored by the smart constructor `catHash`, which maps
the empty digest list to `hashBytes []` (the model of `EMPTY_HASH`).

A node's `_hash` field is a hex string in the source, `''` on a fresh node and
otherwise the 40-char lowercase hex of a 20-byte digest.  Hex encoding is
injective on digests and `''` is not the hex of any digest, so the field is
modelled as `Option Digest` (`none` ↔ `''`).
-/

/-- Byte strings (`Uint8Array`/`Buffer`) as lists of byte values. -/
abbrev Bytes := List Nat

instance {e a : Type} [DecidableEq e] [DecidableEq a] : DecidableEq (Except e a)
  | .ok x, .ok y => decidable_of_iff (x = y) (by simp)
  | .error x, .error y => decidable_of_iff (x = y) (by simp)
  | .ok _, .error _ => isFalse (by simp)
  | .error _, .ok _ => isFalse (by simp)

/-- Free model of truncated BLAKE3-160 digests (collision-free idealization).
`hashBytes bs` = digest of the raw bytes `bs`; `hashCat ds` = digest of the
concatenation of the raw 20-byte digests `ds` (only used with `ds ≠ []`). -/
inductive Digest where
  | hashBytes : Bytes → Digest
  | hashCat : List Digest → Digest

mutual

def Digest.beq : Digest → Digest → Bool
  | .hashBytes a, .hashBytes b => a == b
  | .hashCat a, .hashCat b => Digest.beqList a b
  | .hashBytes _, .hashCat _ => false
  | .hashCat _, .hashBytes _ => false

def Digest.beqList : List Digest → List Digest → Bool
  | [], [] => true
  | a :: as, b :: bs => Digest.beq a b && Digest.beqList as bs
  | [], _ :: _ => false
  | _ :: _, [] => false

end

mutual

theorem Digest.beqDigest_iff : ∀ a b : Digest, Digest.beq a b = true ↔ a = b
  | .hashBytes _, .hashBytes _ => by simp [Digest.beq]
  | .hashBytes _, .hashCat _ => by simp [Digest.beq]
  | .hashCat _, .hashBytes _ => by simp [Digest.beq]
  | .hashCat x, .hashCat y => by simp [Digest.beq, Digest.beqList_iff x y]

theorem Digest.beqList_iff : ∀ a b : List Digest, Digest.beqList a b = true ↔ a = b
  | [], [] => by simp [Digest.beqList]
  | [], _ :: _ => by simp [Digest.beqList]
  | _ :: _, [] => by simp [Digest.beqList]
  | x :: xs, y :: ys => by
      simp [Digest.beqList, Digest.beqDigest_iff x y, Digest.beqList_iff xs ys]

end

instance : DecidableEq Digest := fun a b => decidable_of_iff _ (Digest.beqDigest_iff a b)

/-- `BLAKE3TRUNCATE160_EMPTY_HASH`: the digest of the empty byte string. -/
def emptyHashDigest : Digest := .hashBytes []

/-- Digest of the concatenation of raw digests, as computed by
`blake3.create({dkLen: 20}).update(...)...digest()`.  An empty update sequence
hashes the empty byte string, which is the same digest as `EMPTY_HASH`. -/
def catHash : List Digest → Digest
  | [] => emptyHashDigest
  | ds@(_ :: _) => .hashCat ds

/-! ## The JS default sort order used by `TrieNode._addChild`

`this._children = new Map([...this._children.entries()].sort());` sorts the
`[byte, node]` entries with the DEFAULT comparator, which compares the
`toString()` of the entries, i.e. `"<decimal byte>,[object Object]"`, as
strings.  Since `','` is below every decimal digit, this is the lexicographic
order on the decimal string representations of the byte values (so e.g. 100
sorts before 9). -/

/-- Decimal digit extraction with a structural fuel bound (`fuel > n`
suffices), so the kernel can evaluate it. -/
def decDigitsGo : Nat → Nat → List Nat
  | 0, _ => []
  | f + 1, n => if n < 10 then [n] else decDigitsGo f (n / 10) ++ [n % 10]

/-- Decimal digit values of `n`, most significant first (`toString()`). -/
def decDigits (n : Nat) : List Nat := decDigitsGo (n + 1) n

theorem decDigitsGo_stable : ∀ n f, n < f → decDigitsGo f n = decDigits n := by
  intro n
  induction n using Nat.strong_induction_on with
  | _ n ih =>
    intro f hf
    match f, hf with
    | f' + 1, _ =>
      show decDigitsGo (f' + 1) n = decDigitsGo (n + 1) n
      by_cases h10 : n < 10
      · simp [decDigitsGo, h10]
      · have hdiv : n / 10 < n := Nat.div_lt_self (by omega) (by omega)
        simp only [decDigitsGo, h10, if_false]
        rw [ih (n / 10) hdiv f' (by omega), ih (n / 10) hdiv n (by omega)]

/-- The recursion `decDigits` satisfies (the shape of `toString()`). -/
theorem decDigits_eq (n : Nat) :
    decDigits n = if n < 10 then [n] else decDigits (n / 10) ++ [n % 10] := by
  by_cases h10 : n < 10
  · simp [decDigits, decDigitsGo, h10]
  · have hdiv : n / 10 < n := Nat.div_lt_self (by omega) (by omega)
    conv_lhs => rw [decDigits]
    simp only [decDigitsGo, h10, if_false]
    rw [decDigitsGo_stable (n / 10) n hdiv]

/-- Lexicographic `<` on digit strings, with a shorter string that is a prefix
of a longer one comparing below it (the `','` terminator is below digits). -/
def strLt : List Nat → List Nat → Bool
  | [], [] => false
  | [], _ :: _ => true
  | _ :: _, [] => false
  | a :: as, b :: bs => if a < b then true else if b < a then false else strLt as bs

/-- The order in which the JS default `Array.sort()` arranges child entries:
lexicographic on the decimal strings of the byte labels. -/
def jsLt (a b : Nat) : Bool := strLt (decDigits a) (decDigits b)

/-! ## TrieNode -/

/-- `TrieNode` state: `_hash` (`none` ↔ the string `''`), `_items`
(a JS number, modelled as `Int`), `_children` (the `Map`, as its entry list in
iteration order) and `_key`. -/
inductive TrieNode where
  | mk : Option Digest → Int → List (Nat × TrieNode) → Option Bytes → TrieNode

namespace TrieNode

def hashD : TrieNode → Option Digest | .mk h _ _ _ => h
def items : TrieNode → Int | .mk _ n _ _ => n
def children : TrieNode → List (Nat × TrieNode) | .mk _ _ cs _ => cs
def keyv : TrieNode → Option Bytes | .mk _ _ _ k => k

/-- `get isLeaf(): boolean { return this._children.size === 0; }` -/
def isLeaf (t : TrieNode) : Bool := t.children.isEmpty

/-- `new TrieNode()`: hash `''`, 0 items, no children, no key. -/
def newNode : TrieNode := .mk none 0 [] none

/-- `Map.get`. -/
def lookupChild : List (Nat × TrieNode) → Nat → Option TrieNode
  | [], _ => none
  | q :: qs, c => if q.1 = c then some q.2 else lookupChild qs c

/-- `Map.set`: replace the binding if the key is present, else append. -/
def setChild : List (Nat × TrieNode) → Nat → TrieNode → List (Nat × TrieNode)
  | [], c, u => [(c, u)]
  | q :: qs, c, u => if q.1 = c then (c, u) :: qs else q :: setChild qs c u

/-- `Map.delete`. -/
def eraseChild : List (Nat × TrieNode) → Nat → List (Nat × TrieNode)
  | [], _ => []
  | q :: qs, c => if q.1 = c then qs else q :: eraseChild qs c

/-- Insertion step of insertion sort by `jsLt` on the labels. -/
def insByJs (x : Nat × TrieNode) : List (Nat × TrieNode) → List (Nat × TrieNode)
  | [] => [x]
  | y :: ys => if jsLt x.1 y.1 then x :: y :: ys else y :: insByJs x ys

/-- `[...entries].sort()` with the default comparator: the entries sorted by
`jsLt` on their labels (labels are distinct, so any correct sort agrees). -/
def sortByJs : List (Nat × TrieNode) → List (Nat × TrieNode)
  | [] => []
  | x :: xs => insByJs x (sortByJs xs)

/-- `_addChild(char)`: insert a fresh node at `char` and re-sort the map. -/
def addChild (cs : List (Nat × TrieNode)) (c : Nat) : List (Nat × TrieNode) :=
  sortByJs (cs ++ [(c, newNode)])

/-- The digest `_updateHash` stores: a leaf hashes its value (an absent value
hashes the empty string), an internal node hashes the concatenation of its
children's raw digests in map iteration order (a child whose hex string is
still `''` contributes no bytes). -/
def computeHash (cs : List (Nat × TrieNode)) (k : Option Bytes) : Digest :=
  match cs with
  | [] => .hashBytes (k.getD [])
  | _ :: _ => catHash (cs.filterMap fun q => q.2.hashD)

end TrieNode

mutual

def TrieNode.beq : TrieNode → TrieNode → Bool
  | .mk h1 n1 cs1 k1, .mk h2 n2 cs2 k2 =>
    h1 == h2 && n1 == n2 && TrieNode.beqChildren cs1 cs2 && k1 == k2

def TrieNode.beqChildren : List (Nat × TrieNode) → List (Nat × TrieNode) → Bool
  | [], [] => true
  | (c1, u1) :: r1, (c2, u2) :: r2 =>
    c1 == c2 && TrieNode.beq u1 u2 && TrieNode.beqChildren r1 r2
  | [], _ :: _ => false
  | _ :: _, [] => false

end

mutual

theorem TrieNode.beq_iff : ∀ a b : TrieNode, TrieNode.beq a b = true ↔ a = b
  | .mk h1 n1 cs1 k1, .mk h2 n2 cs2 k2 => by
    simp [TrieNode.beq, TrieNode.beqChildren_iff cs1 cs2, and_assoc]

theorem TrieNode.beqChildren_iff :
    ∀ a b : List (Nat × TrieNode), TrieNode.beqChildren a b = true ↔ a = b
  | [], [] => by simp [TrieNode.beqChildren]
  | [], _ :: _ => by simp [TrieNode.beqChildren]
  | _ :: _, [] => by simp [TrieNode.beqChildren]
  | (c1, u1) :: r1, (c2, u2) :: r2 => by
    simp [TrieNode.beqChildren, TrieNode.beq_iff u1 u2, TrieNode.beqChildren_iff r1 r2,
      and_assoc]

end

instance : DecidableEq TrieNode := fun a b => decidable_of_iff _ (TrieNode.beq_iff a b)

/-- A thrown JS value: a plain string (`throw 'Key length exceeded'`) or a
`HubError` with its `errCode` and message. -/
inductive ThrowVal where
  | str : String → ThrowVal
  | hub : String → String → ThrowVal
deriving DecidableEq, Repr

/-- `TIMESTAMP_LENGTH` from `syncId.ts`. -/
def TIMESTAMP_LENGTH : Nat := 10

namespace TrieNode

/-- The node `_splitLeafNode(current_index)` leaves behind when the resident
key is `k0`: one child holding `k0` (a fresh node after `insert(k0, i+1)`
stored it), the node's own key cleared, hash updated. -/
def splitNode (t : TrieNode) (k0 : Bytes) (i : Nat) (h : i < k0.length) : TrieNode :=
  .mk (some (catHash [computeHash [] (some k0)])) t.items
    [(k0.get ⟨i, h⟩, .mk (some (computeHash [] (some k0))) 1 [] (some k0))] none

/-- The tail of `insert` after any split, with the recursive call on the
chosen child abstracted as `rec`: ensure a child exists for `char`, recurse
into it, and on success bump `_items` and run `_updateHash()`. -/
def insertDescend (rec : TrieNode → Except ThrowVal (TrieNode × Bool))
    (t2 : TrieNode) (c : Nat) : Except ThrowVal (TrieNode × Bool) :=
  let cs3 := if (lookupChild t2.children c).isNone
             then addChild t2.children c else t2.children
  match lookupChild cs3 c with
  | none =>
    -- `this._children.get(char)?.insert(...)` on a missing child is
    -- `undefined`, which is falsy: `return false`
    .ok (.mk t2.hashD t2.items cs3 t2.keyv, false)
  | some child =>
    match rec child with
    | .error e => .error e
    | .ok (child', false) =>
      .ok (.mk t2.hashD t2.items (setChild cs3 c child') t2.keyv, false)
    | .ok (child', true) =>
      -- `_items += 1; _updateHash()`
      let cs4 := setChild cs3 c child'
      .ok (.mk (some (computeHash cs4 t2.keyv)) (t2.items + 1) cs4 t2.keyv, true)

/-- Recursion worker for `insert`, structural on `gas = key.length - i` so
that the kernel can evaluate it.  `_splitLeafNode` is inlined via `splitNode`:
in the only branch that calls it, `current_index ≥ TIMESTAMP_LENGTH`, so the
recursive `insert(this._key, current_index + 1)` on the fresh child either
throws (`current_index + 1 ≥ k0.length`) or immediately stores the resident
key. -/
def insertGo (key : Bytes) : Nat → TrieNode → Nat → Except ThrowVal (TrieNode × Bool)
  | 0, _, _ => .error (.str "Key length exceeded")
  | gas + 1, t, i =>
    if hl : key.length ≤ i then .error (.str "Key length exceeded")
    else
      let c := key.get ⟨i, by omega⟩
      if TIMESTAMP_LENGTH ≤ i ∧ t.isLeaf ∧ t.keyv = none then
        -- reached a leaf node with no value: `_setKeyValue(key); _items += 1`
        .ok (.mk (some (computeHash [] (some key))) (t.items + 1) [] (some key), true)
      else if TIMESTAMP_LENGTH ≤ i ∧ t.isLeaf ∧ t.keyv.getD [] = key then
        -- the same key exists: do nothing
        .ok (t, false)
      else if TIMESTAMP_LENGTH ≤ i ∧ t.isLeaf then
        -- a different key in a leaf: split the node, then descend
        match t.keyv with
        | none => .error (.hub "bad_request" "Cannot split a leaf node without a key and value")
        | some k0 =>
          if hs : i + 1 < k0.length then
            insertDescend (fun child => insertGo key gas child (i + 1))
              (splitNode t k0 i (by omega)) c
          else .error (.str "Key length exceeded")
      else insertDescend (fun child => insertGo key gas child (i + 1)) t c

/-- `TrieNode.insert(key, current_index)`, returning the updated node and the
boolean result, or the thrown value. -/
def insert (key : Bytes) (t : TrieNode) (i : Nat) : Except ThrowVal (TrieNode × Bool) :=
  insertGo key (key.length - i) t i

/-- The node a `delete` leaves behind when its last item is removed: `_items`
decremented to 0, key cleared, hash of the empty value. -/
def clearedNode : TrieNode := .mk (some emptyHashDigest) 0 [] none

/-- Recursion worker for `delete`, structural on `gas = key.length - i`. -/
def deleteGo (key : Bytes) : Nat → TrieNode → Nat → Except ThrowVal (TrieNode × Bool)
  | 0, t, _ =>
    if t.isLeaf then
      if t.keyv.getD [] = key then
        .ok (.mk (some (computeHash [] none)) (t.items - 1) [] none, true)
      else .ok (t, false)
    else .error (.str "Key length exceeded2")
  | gas + 1, t, i =>
  if t.isLeaf then
    if t.keyv.getD [] = key then
      -- `_items -= 1; _setKeyValue(undefined)`
      .ok (.mk (some (computeHash [] none)) (t.items - 1) [] none, true)
    else .ok (t, false)
  else if hl : key.length ≤ i then .error (.str "Key length exceeded2")
  else
    let c := key.get ⟨i, by omega⟩
    match lookupChild t.children c with
    | none => .ok (t, false)
    | some child =>
      match deleteGo key gas child (i + 1) with
      | .error e => .error e
      | .ok (child', false) =>
        .ok (.mk t.hashD t.items (setChild t.children c child') t.keyv, false)
      | .ok (child', true) =>
        let items' := t.items - 1
        let cs1 := setChild t.children c child'
        -- delete the child if it is empty
        let cs2 := if child'.items = 0 then eraseChild cs1 c else cs1
        -- compact the node if it has only one child, which holds a key
        let tC : TrieNode :=
          if items' = 1 ∧ cs2.length = 1 ∧ TIMESTAMP_LENGTH ≤ i then
            match cs2 with
            | (_, n2) :: rest =>
              match n2.keyv with
              | some k2 => .mk none items' rest (some k2) -- `rest = []`; hash set below
              | none => .mk none items' cs2 t.keyv
            | [] => .mk none items' cs2 t.keyv
          else .mk none items' cs2 t.keyv
        -- final `_updateHash()`
        .ok (.mk (some (computeHash tC.children tC.keyv)) tC.items tC.children tC.keyv, true)

/-- `TrieNode.delete(key, current_index)`. -/
def delete (key : Bytes) (t : TrieNode) (i : Nat) : Except ThrowVal (TrieNode × Bool) :=
  deleteGo key (key.length - i) t i

/-- Recursion worker for `exists`, structural on `gas = key.length - i`. -/
def existsGo (key : Bytes) : Nat → TrieNode → Nat → Except ThrowVal Bool
  | 0, t, _ =>
    if t.isLeaf ∧ t.keyv.getD [] = key then .ok true
    else .error (.str "Key length exceeded3")
  | gas + 1, t, i =>
    if t.isLeaf ∧ t.keyv.getD [] = key then .ok true
    else if hl : key.length ≤ i then .error (.str "Key length exceeded3")
    else
      match lookupChild t.children (key.get ⟨i, by omega⟩) with
      | none => .ok false
      | some child => existsGo key gas child (i + 1)

/-- `TrieNode.exists(key, current_index)` (named `existsKey` here because
`exists` is a Lean keyword). -/
def existsKey (key : Bytes) (t : TrieNode) (i : Nat) : Except ThrowVal Bool :=
  existsGo key (key.length - i) t i

/-- `TrieNode.getNode(prefix)`: descend byte-by-byte. -/
def getNode (t : TrieNode) : Bytes → Option TrieNode
  | [] => some t
  | c :: rest =>
    match lookupChild t.children c with
    | none => none
    | some child => getNode child rest

mutual

/-- `TrieNode.getAllValues()`: all leaf keys below this node, in map order. -/
def getAllValues : TrieNode → List Bytes
  | .mk _ _ [] k => match k with | some k0 => [k0] | none => []
  | .mk _ _ (q :: qs) _ => valuesOfChildren (q :: qs)

def valuesOfChildren : List (Nat × TrieNode) → List Bytes
  | [] => []
  | (_, u) :: rest => getAllValues u ++ valuesOfChildren rest

end

/-- `TrieSnapshot` (the `prefix` field is named `pfx` here). -/
structure TrieSnapshot where
  pfx : Bytes
  excludedHashes : List Digest
  numMessages : Int
deriving DecidableEq

/-- `_excludedHash(char)`: digest of the concatenation of the hashes of every
child whose byte differs from `char`, in map order, plus their item total.
`char` is `Option Nat` because `prefix.at(current_index)` may be `undefined`. -/
def excludedHash (t : TrieNode) (char : Option Nat) : Digest × Int :=
  (catHash (t.children.filterMap fun q => if some q.1 = char then none else q.2.hashD),
   (t.children.filter (fun q => ¬ some q.1 = char)).foldr (fun q a => q.2.items + a) 0)

/-- `TrieNode.getSnapshot(prefix, current_index)`.  The JS guard
`current_index === prefix.length - 1` is rendered as `i + 1 = pfx.length`
(exact integer arithmetic, also correct for `pfx = []`). -/
def getSnapshot (pfx : Bytes) (t : TrieNode) (i : Nat) : TrieSnapshot :=
  if i + 1 = pfx.length then
    let ex := excludedHash t pfx[i]?
    { pfx := pfx, excludedHashes := [ex.1], numMessages := ex.2 }
  else
    let inner : Option TrieSnapshot :=
      match _h : pfx[i]? with
      | none => none
      | some c =>
        match lookupChild t.children c with
        | none => none
        | some child => some (getSnapshot pfx child (i + 1))
    let ex := excludedHash t pfx[i]?
    { pfx := match inner with | some s => s.pfx | none => pfx.take (i + 1)
      excludedHashes := ex.1 :: (match inner with | some s => s.excludedHashes | none => [])
      numMessages := ex.2 + (match inner with | some s => s.numMessages | none => 0) }
termination_by pfx.length - i
decreasing_by
  have hi : i < pfx.length := by
    by_contra hcon
    rw [List.getElem?_eq_none (by omega)] at _h
    exact Option.noConfusion _h
  omega

end TrieNode

/-! ## MerkleTrie

`merkleTrie.ts` itself is not under `src/`; the wrapper below is modelled from
the spec (§4.C: "Thin wrapper around the root node", "`rootHash` returns the
root's 40-char hex") and pinned by the tests in `src/` (a fresh trie has
`rootHash === ''`; after deleting the only item `rootHash === EMPTY_HASH`, so
`rootHash` is the root node's `_hash` field, with no special case at zero
items). -/

/-- Modelled from the spec: `merkleTrie.ts` is absent from `src/`.  A
`MerkleTrie` owns its root `TrieNode`. -/
structure MerkleTrie where
  root : TrieNode
deriving DecidableEq

namespace MerkleTrie

/-- `new MerkleTrie()`. -/
def new : MerkleTrie := ⟨TrieNode.newNode⟩

/-- Modelled from the spec: `trie.insert(syncId)` delegates to
`root.insert(id.syncId(), 0)`. -/
def insert (T : MerkleTrie) (syncId : Bytes) : Except ThrowVal (MerkleTrie × Bool) :=
  (TrieNode.insert syncId T.root 0).map fun r => (⟨r.1⟩, r.2)

/-- Modelled from the spec: `trie.delete(syncId)` delegates to
`root.delete(id.syncId(), 0)`. -/
def delete (T : MerkleTrie) (syncId : Bytes) : Except ThrowVal (MerkleTrie × Bool) :=
  (TrieNode.delete syncId T.root 0).map fun r => (⟨r.1⟩, r.2)

/-- Modelled from the spec and pinned by the delete test: `rootHash` is the
root node's `_hash` hex string, modelled as `Option Digest` (`none` ↔ `''`). -/
def rootHashD (T : MerkleTrie) : Option Digest := T.root.hashD

/-- `trie.items` is `root.items`. -/
def items (T : MerkleTrie) : Int := T.root.items

/-- `trie.exists(syncId)`. -/
def existsId (T : MerkleTrie) (syncId : Bytes) : Except ThrowVal Bool :=
  TrieNode.existsKey syncId T.root 0

end MerkleTrie

/-- Building a trie by inserting a list of SyncIds in order, as the tests do
(`syncIds.forEach((id) => trie.insert(id))`); an exception thrown by any
insert aborts the build. -/
def buildTrie (ids : List Bytes) : Except ThrowVal MerkleTrie :=
  ids.foldlM (fun T s => (MerkleTrie.insert T s).map Prod.fst) MerkleTrie.new

/-! ## SyncId (`syncId.ts`) -/

namespace SyncId

/-- `HASH_LENGTH = 20` from `syncId.ts`. -/
def HASH_LENGTH : Nat := 20

/-- Modelled from the spec: `storage/db/types.ts` is absent from `src/`.  The
spec (§3) gives "4 bytes big-endian fid", matching the source comment in
`pkFromSyncId`: "1 byte for the rocksdb prefix, 4 bytes for the fid, 1 byte
for the set". -/
def FID_BYTES : Nat := 4

def isDigitByte (b : Nat) : Bool := 48 ≤ b && b ≤ 57

/-- Numeric value of a string of decimal digit bytes. -/
def digitsVal (ds : Bytes) : Nat := ds.foldl (fun a d => a * 10 + (d - 48)) 0

/-- `parseInt(buf.toString(), 10)`: the value of the leading run of decimal
digit characters, `none` for `NaN` (no leading digit). -/
def jsParseInt (bs : Bytes) : Option Nat :=
  match bs.takeWhile isDigitByte with
  | [] => none
  | ds => some (digitsVal ds)

/-- `Buffer.alloc(4); writeUInt32BE(v)`: big-endian bytes of `v < 2^32`. -/
def be32 (v : Nat) : Bytes :=
  [v / 2 ^ 24 % 256, v / 2 ^ 16 % 256, v / 2 ^ 8 % 256, v % 256]

/-- `target.set(src, off)`: overwrite `src.length` bytes of `target` at
offset `off` (used only in-range; the out-of-range throw is guarded at the
call site). -/
def overlay (arr : Bytes) (off : Nat) (src : Bytes) : Bytes :=
  arr.take off ++ src ++ arr.drop (off + src.length)

/-- `SyncId.pkFromSyncId(syncId)`.  The fallible steps — `writeUInt32BE`
throwing on `NaN` or a value `≥ 2^32`, and `pk.set` throwing when the tail
does not fit behind the timestamp — are modelled as `none`. -/
def pkFromSyncId (syncId : Bytes) : Option Bytes :=
  let ts := syncId.take TIMESTAMP_LENGTH
  match jsParseInt ts with
  | none => none
  | some v =>
    if v < 2 ^ 32 then
      let tsBE := be32 v
      let syncIdPart := syncId.drop TIMESTAMP_LENGTH
      let tsOff := 1 + FID_BYTES + 1
      if (syncIdPart.drop tsOff).length ≤ HASH_LENGTH then
        some (overlay (overlay (overlay (List.replicate (tsOff + 4 + HASH_LENGTH) 0)
                0 (syncIdPart.take tsOff)) tsOff tsBE) (tsOff + 4) (syncIdPart.drop tsOff))
      else none
    else none

end SyncId

/-! ## SyncEngine (`syncEngine.ts`) -/

/-- A `HubError`: its `errCode` and message. -/
structure HubError where
  errCode : String
  message : String
deriving DecidableEq, Repr

/-- `HASHES_PER_FETCH = 50`. -/
def HASHES_PER_FETCH : Int := 50

/-- `NodeMetadata` (one level of sync metadata; the `prefix` field is named
`pfx`, and hash hex strings are `Option Digest` with `none` ↔ `''`).
`children` is optional, as in the TS type. -/
inductive NodeMetadata where
  | mk : Bytes → Int → Option Digest → Option (List (Nat × NodeMetadata)) → NodeMetadata

namespace NodeMetadata
def pfx : NodeMetadata → Bytes | .mk p _ _ _ => p
def numMessages : NodeMetadata → Int | .mk _ n _ _ => n
def hashD : NodeMetadata → Option Digest | .mk _ _ h _ => h
def childrenM : NodeMetadata → Option (List (Nat × NodeMetadata)) | .mk _ _ _ c => c

/-- `Map.get` on a metadata children map. -/
def lookupMeta : List (Nat × NodeMetadata) → Nat → Option NodeMetadata
  | [], _ => none
  | q :: qs, c => if q.1 = c then some q.2 else lookupMeta qs c

/-- `Map.set` on a metadata children map. -/
def setMeta : List (Nat × NodeMetadata) → Nat → NodeMetadata → List (Nat × NodeMetadata)
  | [], c, u => [(c, u)]
  | q :: qs, c, u => if q.1 = c then (c, u) :: qs else q :: setMeta qs c u

end NodeMetadata

/-- The protobuf `TrieNodeMetadataResponse`: `prefix` (`pfx`), `numMessages`,
`hash`, and one level of children responses. -/
inductive TrieNodeMetadataResponse where
  | mk : Bytes → Int → Option Digest → List TrieNodeMetadataResponse → TrieNodeMetadataResponse

namespace TrieNodeMetadataResponse
def pfx : TrieNodeMetadataResponse → Bytes | .mk p _ _ _ => p
def numMessages : TrieNodeMetadataResponse → Int | .mk _ n _ _ => n
def hashD : TrieNodeMetadataResponse → Option Digest | .mk _ _ h _ => h
def childrenR : TrieNodeMetadataResponse → List TrieNodeMetadataResponse | .mk _ _ _ c => c
end TrieNodeMetadataResponse

/-- `fromNodeMetadataResponse` from `syncEngine.ts`: children keyed by the
last byte of their prefix; children whose prefix is empty are skipped. -/
def fromNodeMetadataResponse (r : TrieNodeMetadataResponse) : NodeMetadata :=
  let children := r.childrenR.foldl
    (fun m child =>
      match child.pfx.getLast? with
      | some c => NodeMetadata.setMeta m c (.mk child.pfx child.numMessages child.hashD none)
      | none => m)
    []
  .mk r.pfx r.numMessages r.hashD (some children)

/-- Modelled from the spec: `merkleTrie.ts` is absent from `src/`; §4.C gives
`getTrieNodeMetadata(prefix) → {prefix, numMessages, hash, children}` with one
level of children, as the tests in `src/` exercise it. -/
def getTrieNodeMetadata (root : TrieNode) (pfx : Bytes) : Option NodeMetadata :=
  match root.getNode pfx with
  | none => none
  | some n =>
    some (.mk pfx n.items n.hashD
      (some (n.children.map fun q => (q.1, .mk (pfx ++ [q.1]) q.2.items q.2.hashD none))))

/-- A protobuf `Message`, as far as the sync engine reads it here:
`message.data?.fid`, `message.data?.type`, plus an opaque payload identity. -/
structure Msg where
  dataFid : Option Nat
  dataType : Option Nat
  payload : Nat
deriving DecidableEq, Repr

/-- An opaque `IdRegistryEvent`. -/
def IdRegistryEvent : Type := Nat

/-- The peer RPC surface used by the modelled sync-engine methods, as response
maps (`HubRpcClient`). -/
structure HubRpcClient where
  getSyncMetadataByPfx : Bytes → Except HubError TrieNodeMetadataResponse
  getAllSyncIdsByPfx : Bytes → Except HubError (List Bytes)
  getIdRegistryEvent : Nat → Except HubError IdRegistryEvent
  getAllSignerMessagesByFid : Nat → Except HubError (List Msg)

/-- The local store surface used by `syncUserAndRetryMessage`, as response
maps (`Engine`). -/
structure EngineModel where
  mergeIdRegistryEvent : IdRegistryEvent → Except HubError Unit
  mergeMessage : Msg → Except HubError Unit

/-- Modelled from the spec: `storage/engine` is absent from `src/`; §4.F gives
`mergeMessages(list<m>) → list<Result<void>>`, one result per message. -/
def EngineModel.mergeMessages (eng : EngineModel) (ms : List Msg) : List (Except HubError Unit) :=
  ms.map eng.mergeMessage

open NodeMetadata in
mutual

/-- `SyncEngine.fetchMissingHashesByNode`, with a fuel bound on the recursion
depth (the source recursion is driven by peer-supplied prefixes and has no
intrinsic termination proof); every claim is stated with enough fuel. -/
def fetchMissingHashesByNode (fuel : Nat) (peer : HubRpcClient) (root : TrieNode)
    (theirNode : NodeMetadata) (ourNode : Option NodeMetadata) : List Bytes :=
  if theirNode.numMessages ≤ HASHES_PER_FETCH then
    match peer.getAllSyncIdsByPfx theirNode.pfx with
    | .ok ids => ids
    | .error _ => []
  else
    match theirNode.childrenM with
    | none => []
    | some chs =>
      chs.flatMap fun q =>
        -- `ourNode?.children?.get(theirChildChar)?.hash !== theirChild.hash`
        if ((ourNode.bind childrenM).bind fun cm => lookupMeta cm q.1).map hashD
            ≠ some q.2.hashD then
          match fuel with
          | 0 => []
          | n + 1 => fetchMissingHashesByPfx n peer root q.2.pfx
        else []
termination_by (fuel, 0)

/-- `SyncEngine.fetchMissingHashesByPrefix`. -/
def fetchMissingHashesByPfx (fuel : Nat) (peer : HubRpcClient) (root : TrieNode)
    (pfx : Bytes) : List Bytes :=
  let ourNode := getTrieNodeMetadata root pfx
  match peer.getSyncMetadataByPfx pfx with
  | .ok resp => fetchMissingHashesByNode fuel peer root (fromNodeMetadataResponse resp) ourNode
  | .error _ => []
termination_by (fuel, 1)

end

/-- `SyncEngine.syncUserAndRetryMessage(message, rpcClient)`.  The `HubError`
built from an underlying error keeps that error's message. -/
def syncUserAndRetryMessage (eng : EngineModel) (rpc : HubRpcClient) (m : Msg) :
    Except HubError Unit :=
  match m.dataFid with
  | none => .error ⟨"bad_request.invalid_param", "Invalid fid"⟩
  | some fid =>
    -- `if (!fid)`: 0 is falsy
    if fid = 0 then .error ⟨"bad_request.invalid_param", "Invalid fid"⟩
    else
    match rpc.getIdRegistryEvent fid with
    | .error _ => .error ⟨"unavailable.network_failure", "Failed to fetch custody event"⟩
    | .ok ev =>
      match eng.mergeIdRegistryEvent ev with
      | .error _ => .error ⟨"unavailable.storage_failure", "Failed to merge custody event"⟩
      | .ok _ =>
        match rpc.getAllSignerMessagesByFid fid with
        | .error _ => .error ⟨"unavailable.network_failure", "Failed to fetch signer messages"⟩
        | .ok signerMsgs =>
          let results := eng.mergeMessages signerMsgs
          if results.all fun r => ¬ r.isOk then
            .error ⟨"unavailable.storage_failure", "Failed to merge signer messages"⟩
          else
            -- retry the original message once
            match eng.mergeMessage m with
            | .ok u => .ok u
            | .error e2 => .error ⟨"unavailable.storage_failure", e2.message⟩

/-! ## Sample data shared by concrete counterexamples and witnesses -/

/-- "0000000001": a 10-digit ASCII timestamp. -/
def tsDigits : Bytes := [48, 48, 48, 48, 48, 48, 48, 48, 48, 49]

/-- A 20-byte message hash. -/
def sampleHash : Bytes := List.replicate 20 7

/-- A 36-byte SyncId (10-digit timestamp, family prefix, 4-byte big-endian
fid whose first byte is 100, set postfix, 20-byte hash). -/
def sampleId1 : Bytes := tsDigits ++ [1] ++ [100, 0, 0, 0] ++ [1] ++ sampleHash

/-- Like `sampleId1` but with fid first byte 9. -/
def sampleId2 : Bytes := tsDigits ++ [1] ++ [9, 0, 0, 0] ++ [1] ++ sampleHash

/-- The trie holding exactly `sampleId1`. -/
def sampleTrie1 : MerkleTrie :=
  match MerkleTrie.insert MerkleTrie.new sampleId1 with
  | .ok r => r.1
  | .error _ => MerkleTrie.new

/-- The trie holding `sampleId1` and `sampleId2`. -/
def sampleTrie12 : MerkleTrie :=
  match buildTrie [sampleId1, sampleId2] with
  | .ok T => T
  | .error _ => MerkleTrie.new

/-- The node of `sampleTrie12` at the path `timestamp ++ family prefix`. -/
def sampleNode12 : TrieNode :=
  match sampleTrie12.root.getNode (tsDigits ++ [1]) with
  | some n => n
  | none => TrieNode.newNode

/-! ## C7: what a key-length overrun throws -/

/-- The claim's "aborts with a bad_request error": the thrown value is a
`HubError` whose `errCode` is `bad_request` or one of its subkinds. -/
def isBadRequestThrow : ThrowVal → Bool
  | .hub code _ => "bad_request".isPrefixOf code
  | .str _ => false

/-- C7 counterexample: running past the end of the key during insert throws
the plain string `'Key length exceeded'`, which is not a `bad_request`
`HubError` (`_splitLeafNode`'s `bad_request` throw guards a different,
unreachable condition). -/
theorem c7_keyLengthThrow_counterexample :
    TrieNode.insert [] TrieNode.newNode 0 = .error (.str "Key length exceeded") ∧
    TrieNode.delete [48] (.mk none 1 [(48, TrieNode.newNode)] none) 1 =
      .error (.str "Key length exceeded2") ∧
    TrieNode.existsKey [] (.mk none 1 [(48, TrieNode.newNode)] none) 0 =
      .error (.str "Key length exceeded3") ∧
    isBadRequestThrow (.str "Key length exceeded") = false ∧
    isBadRequestThrow (.str "Key length exceeded2") = false ∧
    isBadRequestThrow (.str "Key length exceeded3") = false := by
  refine ⟨?_, ?_, ?_, by decide, by decide, by decide⟩ <;> decide

/-- C7 (amended): if trie traversal in insert, delete, or exists runs past
the end of the key — for delete and exists, on a non-leaf node, resp. a node
that does not already satisfy the leaf key-match — the operation aborts by
throwing the plain string `'Key length exceeded'` / `'…2'` / `'…3'` (not a
`bad_request` `HubError`). -/
theorem keyLengthExceeded_throws :
    (∀ (key : Bytes) (t : TrieNode) (i : Nat), key.length ≤ i →
      TrieNode.insert key t i = .error (.str "Key length exceeded")) ∧
    (∀ (key : Bytes) (t : TrieNode) (i : Nat), ¬ t.isLeaf → key.length ≤ i →
      TrieNode.delete key t i = .error (.str "Key length exceeded2")) ∧
    (∀ (key : Bytes) (t : TrieNode) (i : Nat), ¬ (t.isLeaf ∧ t.keyv.getD [] = key) →
      key.length ≤ i →
      TrieNode.existsKey key t i = .error (.str "Key length exceeded3")) := by
  refine ⟨?_, ?_, ?_⟩
  · intro key t i h
    have h0 : key.length - i = 0 := by omega
    rw [TrieNode.insert, h0]
    rfl
  · intro key t i hleaf h
    have h0 : key.length - i = 0 := by omega
    rw [TrieNode.delete, h0]
    simp [TrieNode.deleteGo, hleaf]
  · intro key t i hleaf h
    have h0 : key.length - i = 0 := by omega
    rw [TrieNode.existsKey, h0]
    simp [TrieNode.existsGo, hleaf]

/-- C7 witness: the amended abort behaviour at concrete inputs. -/
theorem keyLengthExceeded_throws_witness :
    TrieNode.insert [48] TrieNode.newNode 1 = .error (.str "Key length exceeded") ∧
    TrieNode.delete [48] (.mk none 1 [(48, TrieNode.newNode)] none) 1 =
      .error (.str "Key length exceeded2") ∧
    TrieNode.existsKey [48] (.mk none 1 [(48, TrieNode.newNode)] none) 1 =
      .error (.str "Key length exceeded3") :=
  ⟨keyLengthExceeded_throws.1 [48] TrieNode.newNode 1 (by decide),
   keyLengthExceeded_throws.2.1 [48] (.mk none 1 [(48, TrieNode.newNode)] none) 1
     (by decide) (by decide),
   keyLengthExceeded_throws.2.2 [48] (.mk none 1 [(48, TrieNode.newNode)] none) 1
     (by decide) (by decide)⟩

/-! ## C5: `pkFromSyncId` -/

/-- A 40-byte input as the claim describes SyncIds: 10 ASCII-decimal bytes
followed by 30 further bytes. -/
def sample40 : Bytes := tsDigits ++ List.replicate 30 5

/-- C5 counterexample: on a 40-byte input, `pkFromSyncId` does not return the
claimed 30-byte key at all — the 24 bytes after the set postfix do not fit
behind the timestamp (`pk.set` throws a `RangeError`).  A SyncId really is
10 + 1 + `FID_BYTES` + 1 + 20 = 36 bytes. -/
theorem c5_pkFromSyncId_counterexample :
    sample40.length = 40 ∧ SyncId.pkFromSyncId sample40 = none := by
  refine ⟨by decide, by decide⟩

theorem list_take_append_of_length {α : Type} (a b : List α) (n : Nat) (h : a.length = n) :
    (a ++ b).take n = a := by
  subst h; simp

theorem list_drop_append_of_length {α : Type} (a b : List α) (n : Nat) (h : a.length = n) :
    (a ++ b).drop n = b := by
  subst h; simp

/-- C5 (amended): for every 36-byte SyncId — 10 ASCII-decimal timestamp bytes
whose value is below `2^32`, then 26 bytes (1-byte family prefix, 4-byte fid,
1-byte set postfix, 20-byte hash) — `pkFromSyncId` returns the 30-byte store
primary key: bytes 10–15, then the 4-byte big-endian timestamp, then bytes
16–35 (the 20-byte hash). -/
theorem pkFromSyncId_spec (ts rest : Bytes) (hts : ts.length = 10)
    (hdig : ∀ b ∈ ts, SyncId.isDigitByte b) (hrest : rest.length = 26)
    (hval : SyncId.digitsVal ts < 2 ^ 32) :
    SyncId.pkFromSyncId (ts ++ rest) =
      some (rest.take 6 ++ SyncId.be32 (SyncId.digitsVal ts) ++ rest.drop 6) ∧
    (rest.take 6 ++ SyncId.be32 (SyncId.digitsVal ts) ++ rest.drop 6).length = 30 := by
  have htake : (ts ++ rest).take TIMESTAMP_LENGTH = ts :=
    list_take_append_of_length ts rest _ hts
  have hdrop : (ts ++ rest).drop TIMESTAMP_LENGTH = rest :=
    list_drop_append_of_length ts rest _ hts
  have htw : ts.takeWhile SyncId.isDigitByte = ts := by
    rw [List.takeWhile_eq_self_iff]
    intro b hb; exact hdig b hb
  have hparse : SyncId.jsParseInt ts = some (SyncId.digitsVal ts) := by
    rw [SyncId.jsParseInt, htw]
    match ts, hts with
    | b :: ts', _ => rfl
  have hlen6 : (rest.take 6).length = 6 := by simp [hrest]
  have hlend : (rest.drop 6).length = 20 := by simp [hrest]
  have hbe : (SyncId.be32 (SyncId.digitsVal ts)).length = 4 := rfl
  constructor
  · rw [SyncId.pkFromSyncId]
    simp only [htake, hdrop, hparse, hval, if_true]
    rw [if_pos (by simp [hlend, SyncId.HASH_LENGTH, SyncId.FID_BYTES])]
    congr 1
    show SyncId.overlay (SyncId.overlay (SyncId.overlay (List.replicate 30 0) 0 (rest.take 6))
        6 (SyncId.be32 (SyncId.digitsVal ts))) 10 (rest.drop 6) = _
    have h1 : SyncId.overlay (List.replicate 30 0) 0 (rest.take 6) =
        rest.take 6 ++ List.replicate 24 0 := by
      rw [SyncId.overlay]
      simp [hlen6, List.drop_replicate]
    have h2 : SyncId.overlay (rest.take 6 ++ List.replicate 24 0) 6
        (SyncId.be32 (SyncId.digitsVal ts)) =
        rest.take 6 ++ SyncId.be32 (SyncId.digitsVal ts) ++ List.replicate 20 0 := by
      rw [SyncId.overlay, hbe, list_take_append_of_length _ _ _ hlen6,
        List.drop_append_eq_append_drop]
      simp [hlen6, List.drop_replicate]
    have h3 : SyncId.overlay
        (rest.take 6 ++ SyncId.be32 (SyncId.digitsVal ts) ++ List.replicate 20 0) 10
        (rest.drop 6) =
        rest.take 6 ++ SyncId.be32 (SyncId.digitsVal ts) ++ rest.drop 6 := by
      rw [SyncId.overlay, hlend]
      have ht : (rest.take 6 ++ SyncId.be32 (SyncId.digitsVal ts) ++
          List.replicate 20 0).take 10 =
          rest.take 6 ++ SyncId.be32 (SyncId.digitsVal ts) := by
        rw [List.append_assoc, List.take_append_eq_append_take, hlen6]
        norm_num
        rw [List.take_take, List.take_append_eq_append_take, hbe,
          List.take_of_length_le (le_of_eq hbe)]
        simp
      have hd : (rest.take 6 ++ SyncId.be32 (SyncId.digitsVal ts) ++
          List.replicate 20 0).drop 30 = [] := by
        rw [List.drop_eq_nil_iff]
        simp [hlen6, hbe]
      rw [ht, hd]
      simp
    rw [h1, h2, h3]
  · rw [List.length_append, List.length_append, hlen6, hlend, hbe]

/-- C5 witness: the amended layout at a concrete SyncId (timestamp
"1665182332"). -/
theorem pkFromSyncId_spec_witness :
    SyncId.pkFromSyncId ([49, 54, 54, 53, 49, 56, 50, 51, 51, 50] ++ List.replicate 26 3) =
      some ((List.replicate 26 3).take 6 ++
        SyncId.be32 (SyncId.digitsVal [49, 54, 54, 53, 49, 56, 50, 51, 51, 50]) ++
        (List.replicate 26 3).drop 6) :=
  (pkFromSyncId_spec [49, 54, 54, 53, 49, 56, 50, 51, 51, 50] (List.replicate 26 3)
    (by decide) (by decide) (by decide) (by decide)).1

/-! ## C6: `fetchMissingHashesByNode` -/

/-- `l.flatMap (fun x => if p x then f x else [])` only visits the
`p`-satisfying elements. -/
theorem flatMap_if_eq_filter_flatMap {α β : Type} (l : List α) (p : α → Prop)
    [DecidablePred p] (f : α → List β) :
    (l.flatMap fun x => if p x then f x else []) = (l.filter fun x => decide (p x)).flatMap f := by
  induction l with
  | nil => rfl
  | cons a l ih =>
    by_cases h : p a <;> simp [List.flatMap_cons, h, ih]

open NodeMetadata in
/-- C6: `fetchMissingHashesByNode` (with fuel for the peer-driven recursion)
(1) fetches all SyncIds under the peer node's prefix via
`getSyncIdsByPrefix` when `theirNode.numMessages ≤ 50`, and otherwise
(2) recurses (via `fetchMissingHashesByPrefix`) into exactly those peer
children whose hash differs from the corresponding local child's hash,
(3) treating an absent local child as unequal. -/
theorem fetchMissingHashesByNode_spec (fuel : Nat) (peer : HubRpcClient) (root : TrieNode)
    (theirNode : NodeMetadata) (ourNode : Option NodeMetadata) :
    (∀ ids, theirNode.numMessages ≤ 50 → peer.getAllSyncIdsByPfx theirNode.pfx = .ok ids →
      fetchMissingHashesByNode fuel peer root theirNode ourNode = ids) ∧
    (∀ chs, ¬ theirNode.numMessages ≤ 50 → theirNode.childrenM = some chs →
      fetchMissingHashesByNode (fuel + 1) peer root theirNode ourNode =
        (chs.filter fun q =>
            decide (((ourNode.bind childrenM).bind fun cm => lookupMeta cm q.1).map hashD
              ≠ some q.2.hashD)).flatMap
          fun q => fetchMissingHashesByPfx fuel peer root q.2.pfx) ∧
    (∀ (c : Nat) (theirHash : Option Digest),
      ((ourNode.bind childrenM).bind fun cm => lookupMeta cm c) = none →
      ((ourNode.bind childrenM).bind fun cm => lookupMeta cm c).map hashD ≠ some theirHash) := by
  refine ⟨?_, ?_, ?_⟩
  · intro ids hle hok
    rw [fetchMissingHashesByNode]
    simp only [HASHES_PER_FETCH] at *
    rw [if_pos hle, hok]
  · intro chs hgt hch
    rw [fetchMissingHashesByNode]
    simp only [HASHES_PER_FETCH] at *
    rw [if_neg hgt, hch]
    exact flatMap_if_eq_filter_flatMap chs _ _
  · intro c theirHash habs
    rw [habs]
    simp

/-- A sample peer, serving one SyncId list and no metadata. -/
def samplePeer : HubRpcClient :=
  { getSyncMetadataByPfx := fun _ => .error ⟨"unavailable", "no"⟩
    getAllSyncIdsByPfx := fun _ => .ok [sampleId1]
    getIdRegistryEvent := fun _ => .ok (0 : Nat)
    getAllSignerMessagesByFid := fun _ => .ok [] }

/-- A sample peer metadata node with 51 messages and one child. -/
def sampleBigMeta : NodeMetadata :=
  .mk [48] 51 none (some [(49, .mk [48, 49] 1 (some emptyHashDigest) none)])

/-- C6 witness: both branches at concrete inputs: a small peer node is
fetched in one call; a big one recurses exactly into its (locally absent,
hence mismatching) child. -/
theorem fetchMissingHashesByNode_spec_witness :
    (fetchMissingHashesByNode 1 samplePeer TrieNode.newNode
      (.mk [48] 1 none (some [])) none = [sampleId1]) ∧
    (fetchMissingHashesByNode 1 samplePeer TrieNode.newNode sampleBigMeta none =
      fetchMissingHashesByPfx 0 samplePeer TrieNode.newNode [48, 49]) := by
  constructor
  · exact (fetchMissingHashesByNode_spec 1 samplePeer TrieNode.newNode
      (.mk [48] 1 none (some [])) none).1 [sampleId1] (by decide) rfl
  · have h := (fetchMissingHashesByNode_spec 0 samplePeer TrieNode.newNode
      sampleBigMeta none).2.1 [(49, .mk [48, 49] 1 (some emptyHashDigest) none)]
      (by decide) rfl
    rw [h]
    simp [NodeMetadata.pfx, NodeMetadata.hashD]

/-! ## C8 and C9: `syncUserAndRetryMessage` -/

/-- A sample message from fid 5. -/
def sampleMsg : Msg := ⟨some 5, some 1, 0⟩

/-- A different message (a signer add) from fid 5. -/
def sampleSigner : Msg := ⟨some 5, some 9, 1⟩

/-- An engine whose signer merge succeeds but whose retry of the original
message fails with `bad_request.duplicate`. -/
def cexEngine : EngineModel :=
  { mergeIdRegistryEvent := fun _ => .ok ()
    mergeMessage := fun m =>
      if m = sampleSigner then .ok ()
      else .error ⟨"bad_request.duplicate", "message has already been merged"⟩ }

/-- A peer that serves the custody event and one signer message. -/
def cexRpc : HubRpcClient :=
  { getSyncMetadataByPfx := fun _ => .error ⟨"unavailable", "no"⟩
    getAllSyncIdsByPfx := fun _ => .ok []
    getIdRegistryEvent := fun _ => .ok (0 : Nat)
    getAllSignerMessagesByFid := fun _ => .ok [sampleSigner] }

/-- C8 counterexample: a signer message merges, the retry of the original
message fails with `bad_request.duplicate`, but the surfaced result is a
fresh `unavailable.storage_failure` error — not the result of the retry. -/
theorem c8_syncUserAndRetryMessage_counterexample :
    syncUserAndRetryMessage cexEngine cexRpc sampleMsg =
      .error ⟨"unavailable.storage_failure", "message has already been merged"⟩ ∧
    cexEngine.mergeMessage sampleMsg =
      .error ⟨"bad_request.duplicate", "message has already been merged"⟩ ∧
    syncUserAndRetryMessage cexEngine cexRpc sampleMsg ≠ cexEngine.mergeMessage sampleMsg := by
  refine ⟨by decide, by decide, by decide⟩

/-- C8 (amended): with a usable fid, `syncUserAndRetryMessage` returns
`unavailable.network_failure` when fetching the ID registry event fails,
`unavailable.storage_failure` when merging it fails, and, when at least one
fetched signer message merged, retries the original message exactly once
(the only `mergeMessage` of the original in the code path) and surfaces that
retry's success unchanged, wrapping a retry failure as
`unavailable.storage_failure` carrying the underlying message. -/
theorem syncUserAndRetryMessage_spec (eng : EngineModel) (rpc : HubRpcClient) (m : Msg)
    (fid : Nat) (hfid : m.dataFid = some fid) (hfid0 : fid ≠ 0) :
    (∀ e, rpc.getIdRegistryEvent fid = .error e →
      syncUserAndRetryMessage eng rpc m =
        .error ⟨"unavailable.network_failure", "Failed to fetch custody event"⟩) ∧
    (∀ ev e, rpc.getIdRegistryEvent fid = .ok ev → eng.mergeIdRegistryEvent ev = .error e →
      syncUserAndRetryMessage eng rpc m =
        .error ⟨"unavailable.storage_failure", "Failed to merge custody event"⟩) ∧
    (∀ ev msgs, rpc.getIdRegistryEvent fid = .ok ev → eng.mergeIdRegistryEvent ev = .ok () →
      rpc.getAllSignerMessagesByFid fid = .ok msgs →
      ¬ ((eng.mergeMessages msgs).all fun r => ¬ r.isOk) →
      syncUserAndRetryMessage eng rpc m =
        match eng.mergeMessage m with
        | .ok u => .ok u
        | .error e2 => .error ⟨"unavailable.storage_failure", e2.message⟩) := by
  refine ⟨?_, ?_, ?_⟩
  · intro e he
    rw [syncUserAndRetryMessage, hfid]
    simp only [if_neg hfid0, he]
  · intro ev e hev he
    rw [syncUserAndRetryMessage, hfid]
    simp only [if_neg hfid0, hev, he]
  · intro ev msgs hev hm hs hall
    rw [syncUserAndRetryMessage, hfid]
    simp only [if_neg hfid0, hev, hm, hs, if_neg hall]

/-- C8 witness: the three amended branches at concrete oracles. -/
theorem syncUserAndRetryMessage_spec_witness :
    (syncUserAndRetryMessage cexEngine
      { cexRpc with getIdRegistryEvent := fun _ => .error ⟨"unavailable", "down"⟩ } sampleMsg =
      .error ⟨"unavailable.network_failure", "Failed to fetch custody event"⟩) ∧
    (syncUserAndRetryMessage
      { cexEngine with mergeIdRegistryEvent := fun _ => .error ⟨"unavailable", "disk"⟩ }
      cexRpc sampleMsg =
      .error ⟨"unavailable.storage_failure", "Failed to merge custody event"⟩) ∧
    (syncUserAndRetryMessage cexEngine cexRpc sampleMsg =
      match cexEngine.mergeMessage sampleMsg with
      | .ok u => .ok u
      | .error e2 => .error ⟨"unavailable.storage_failure", e2.message⟩) :=
  ⟨(syncUserAndRetryMessage_spec cexEngine _ sampleMsg 5 rfl (by decide)).1
      ⟨"unavailable", "down"⟩ rfl,
   (syncUserAndRetryMessage_spec _ cexRpc sampleMsg 5 rfl (by decide)).2.1
      (0 : Nat) ⟨"unavailable", "disk"⟩ rfl rfl,
   (syncUserAndRetryMessage_spec cexEngine cexRpc sampleMsg 5 rfl (by decide)).2.2
      (0 : Nat) [sampleSigner] rfl rfl rfl (by decide)⟩

/-- C9: if the peer's `getAllSignerMessagesByFid` succeeds with an empty
list, the merge results are empty, `every(isErr)` is vacuously true, and
`syncUserAndRetryMessage` returns `unavailable.storage_failure` without ever
retrying the original message (the result does not depend on
`eng.mergeMessage` at all). -/
theorem syncUserAndRetryMessage_emptySigners (eng : EngineModel) (rpc : HubRpcClient)
    (m : Msg) (fid : Nat) (ev : IdRegistryEvent) (hfid : m.dataFid = some fid)
    (hfid0 : fid ≠ 0) (hev : rpc.getIdRegistryEvent fid = .ok ev)
    (hm : eng.mergeIdRegistryEvent ev = .ok ())
    (hs : rpc.getAllSignerMessagesByFid fid = .ok []) :
    syncUserAndRetryMessage eng rpc m =
      .error ⟨"unavailable.storage_failure", "Failed to merge signer messages"⟩ := by
  rw [syncUserAndRetryMessage, hfid]
  simp only [if_neg hfid0, hev, hm, hs]
  rfl

/-- C9 witness. -/
theorem syncUserAndRetryMessage_emptySigners_witness :
    syncUserAndRetryMessage cexEngine
      { cexRpc with getAllSignerMessagesByFid := fun _ => .ok [] } sampleMsg =
      .error ⟨"unavailable.storage_failure", "Failed to merge signer messages"⟩ :=
  syncUserAndRetryMessage_emptySigners cexEngine _ sampleMsg 5 (0 : Nat) rfl (by decide)
    rfl rfl rfl

/-! ## C1, C2, C3: concrete counterexamples -/

/-- C1 counterexample: after inserting `sampleId1` (fid byte 100) and
`sampleId2` (fid byte 9), the node at the path `timestamp ++ family prefix`
keeps its children in the order `[100, 9]` — the JS default sort's
decimal-string order — not ascending numeric byte order; its hash is the
digest of the children's digests in that stored order. -/
theorem c1_childOrder_counterexample :
    buildTrie [sampleId1, sampleId2] = .ok sampleTrie12 ∧
    sampleTrie12.root.getNode (tsDigits ++ [1]) = some sampleNode12 ∧
    sampleNode12.children.map Prod.fst = [100, 9] ∧
    ¬ List.Pairwise (· < ·) (sampleNode12.children.map Prod.fst) ∧
    sampleNode12.hashD =
      some (catHash [.hashBytes sampleId1, .hashBytes sampleId2]) := by
  refine ⟨rfl, rfl, rfl, ?_, rfl⟩
  intro h
  rw [show sampleNode12.children.map Prod.fst = [100, 9] from rfl] at h
  exact absurd (List.rel_of_pairwise_cons h (List.mem_singleton.mpr rfl)) (by omega)

/-- C2 counterexample: for the empty trie `T`, `delete(insert(T, s), s)` is
not `T` bit-for-bit: the resulting root is `clearedNode` (hash `EMPTY_HASH`),
while the fresh root's hash is `''` (`none`). -/
theorem c2_deleteInsert_counterexample :
    MerkleTrie.existsId MerkleTrie.new sampleId1 = .ok false ∧
    MerkleTrie.insert MerkleTrie.new sampleId1 = .ok (sampleTrie1, true) ∧
    MerkleTrie.delete sampleTrie1 sampleId1 = .ok (⟨TrieNode.clearedNode⟩, true) ∧
    (⟨TrieNode.clearedNode⟩ : MerkleTrie) ≠ MerkleTrie.new ∧
    MerkleTrie.rootHashD ⟨TrieNode.clearedNode⟩ ≠ MerkleTrie.rootHashD MerkleTrie.new := by
  refine ⟨rfl, rfl, rfl, by decide, by decide⟩

/-- C3 counterexample: a trie with zero items whose visible root hash is
`EMPTY_HASH`, not the empty string: the one obtained by inserting and then
deleting a SyncId (`''` is modelled as `none`). -/
theorem c3_rootHash_counterexample :
    MerkleTrie.delete sampleTrie1 sampleId1 = .ok (⟨TrieNode.clearedNode⟩, true) ∧
    MerkleTrie.items ⟨TrieNode.clearedNode⟩ = 0 ∧
    MerkleTrie.rootHashD ⟨TrieNode.clearedNode⟩ = some emptyHashDigest ∧
    some emptyHashDigest ≠ (none : Option Digest) := by
  refine ⟨rfl, rfl, rfl, by decide⟩

/-- A descend step that returns `true` stores a fresh hash digest. -/
theorem insertDescend_true_hashD (rec : TrieNode → Except ThrowVal (TrieNode × Bool))
    (t2 : TrieNode) (c : Nat) (t' : TrieNode)
    (h : TrieNode.insertDescend rec t2 c = .ok (t', true)) : t'.hashD ≠ none := by
  rw [TrieNode.insertDescend] at h
  dsimp only at h
  split at h
  · simp at h
  · split at h
    · simp at h
    · simp at h
    · rw [show ∀ a b : TrieNode × Bool, Except.ok (ε := ThrowVal) a = Except.ok b ↔ a = b
        from fun a b => by simp] at h
      cases h
      simp [TrieNode.hashD]

/-- Every insert that returns `true` stores a fresh hash digest. -/
theorem insertGo_true_hashD :
    ∀ (gas : Nat) (key : Bytes) (t : TrieNode) (i : Nat) (t' : TrieNode),
      TrieNode.insertGo key gas t i = .ok (t', true) → t'.hashD ≠ none := by
  intro gas key t i t' h
  match gas with
  | 0 => simp [TrieNode.insertGo] at h
  | g + 1 =>
    rw [TrieNode.insertGo] at h
    split at h
    · simp at h
    · split at h
      · rw [show ∀ a b : TrieNode × Bool, Except.ok (ε := ThrowVal) a = Except.ok b ↔ a = b
          from fun a b => by simp] at h
        cases h
        simp [TrieNode.hashD]
      · split at h
        · simp at h
        · split at h
          · split at h
            · simp at h
            · split at h
              · exact insertDescend_true_hashD _ _ _ _ h
              · simp at h
          · exact insertDescend_true_hashD _ _ _ _ h

/-- C3 (amended): the freshly-constructed trie has zero items and visible
root hash `''`; any insert that adds an item leaves a non-empty root hash
(zero-item tries reached by deletion instead show `EMPTY_HASH`, see the
counterexample). -/
theorem rootHash_empty_amended :
    (MerkleTrie.items MerkleTrie.new = 0 ∧ MerkleTrie.rootHashD MerkleTrie.new = none) ∧
    (∀ (T T' : MerkleTrie) (s : Bytes), MerkleTrie.insert T s = .ok (T', true) →
      MerkleTrie.rootHashD T' ≠ none) := by
  refine ⟨⟨rfl, rfl⟩, ?_⟩
  intro T T' s h
  rw [MerkleTrie.insert] at h
  rcases hr : TrieNode.insert s T.root 0 with e | r
  · rw [hr] at h; simp [Except.map] at h
  · rcases r with ⟨rt, rb⟩
    rw [hr] at h
    simp only [Except.map, Except.ok.injEq, Prod.mk.injEq, MerkleTrie.mk.injEq] at h
    obtain ⟨hroot, hb⟩ := h
    subst hb
    rw [TrieNode.insert] at hr
    have := insertGo_true_hashD _ s T.root 0 rt hr
    rwa [MerkleTrie.rootHashD, ← hroot]

/-- C3 amended witness. -/
theorem rootHash_empty_amended_witness :
    MerkleTrie.rootHashD sampleTrie1 ≠ none :=
  rootHash_empty_amended.2 MerkleTrie.new sampleTrie1 sampleId1 rfl

/-! ## C10: read operations do not mutate the trie

The source methods `exists`, `getSnapshot`, `getNode` and `getAllValues`
contain no assignment to any node field.  To state that as a theorem, each is
rendered below in state-threading style: the `Th` version returns, next to
the source method's result, the node as the call leaves it, rebuilding every
node along the traversal from the recursive call's returned child.  The frame
property says this post-state is the input trie. -/

namespace TrieNode

theorem setChild_self : ∀ (cs : List (Nat × TrieNode)) (c : Nat) (u : TrieNode),
    lookupChild cs c = some u → setChild cs c u = cs := by
  intro cs c u h
  induction cs with
  | nil => simp [lookupChild] at h
  | cons q qs ih =>
    by_cases hq : q.1 = c
    · rw [lookupChild] at h
      rw [if_pos hq] at h
      cases h
      rw [setChild, if_pos hq]
      rw [show (c, q.2) = q from by cases q; simp_all]
    · rw [lookupChild] at h
      rw [if_neg hq] at h
      rw [setChild, if_neg hq, ih h]

/-- State-threading rendering of `exists`. -/
def existsTh (key : Bytes) (t : TrieNode) (i : Nat) : (Except ThrowVal Bool) × TrieNode :=
  if t.isLeaf ∧ t.keyv.getD [] = key then (.ok true, t)
  else if hl : key.length ≤ i then (.error (.str "Key length exceeded3"), t)
  else
    match lookupChild t.children (key.get ⟨i, by omega⟩) with
    | none => (.ok false, t)
    | some child =>
      let r := existsTh key child (i + 1)
      (r.1, .mk t.hashD t.items (setChild t.children (key.get ⟨i, by omega⟩) r.2) t.keyv)
termination_by key.length - i

theorem existsTh_frame (key : Bytes) (t : TrieNode) (i : Nat) :
    (existsTh key t i).2 = t := by
  rw [existsTh]
  split
  · rfl
  · split
    · rfl
    · rename_i hli
      rcases hc : lookupChild t.children (key.get ⟨i, by omega⟩) with _ | child
      · rfl
      · have ih := existsTh_frame key child (i + 1)
        dsimp only
        rw [ih, setChild_self _ _ _ hc]
        cases t; rfl
termination_by key.length - i

/-- State-threading rendering of `getNode`. -/
def getNodeTh (t : TrieNode) : Bytes → (Option TrieNode) × TrieNode
  | [] => (some t, t)
  | c :: rest =>
    match lookupChild t.children c with
    | none => (none, t)
    | some child =>
      let r := getNodeTh child rest
      (r.1, .mk t.hashD t.items (setChild t.children c r.2) t.keyv)

theorem getNodeTh_frame : ∀ (pfx : Bytes) (t : TrieNode), (getNodeTh t pfx).2 = t := by
  intro pfx
  induction pfx with
  | nil => intro t; rfl
  | cons c rest ih =>
    intro t
    rw [getNodeTh]
    rcases hc : lookupChild t.children c with _ | child
    · rfl
    · dsimp only
      rw [ih child, setChild_self _ _ _ hc]
      cases t; rfl

/-- State-threading rendering of `getSnapshot`. -/
def getSnapshotTh (pfx : Bytes) (t : TrieNode) (i : Nat) : TrieSnapshot × TrieNode :=
  if i + 1 = pfx.length then
    let ex := excludedHash t pfx[i]?
    ({ pfx := pfx, excludedHashes := [ex.1], numMessages := ex.2 }, t)
  else
    match _h : pfx[i]? with
    | none =>
      let ex := excludedHash t none
      ({ pfx := pfx.take (i + 1), excludedHashes := [ex.1], numMessages := ex.2 + 0 }, t)
    | some c =>
      match lookupChild t.children c with
      | none =>
        let ex := excludedHash t (some c)
        ({ pfx := pfx.take (i + 1), excludedHashes := [ex.1], numMessages := ex.2 + 0 }, t)
      | some child =>
        let r := getSnapshotTh pfx child (i + 1)
        let ex := excludedHash t (some c)
        ({ pfx := r.1.pfx, excludedHashes := ex.1 :: r.1.excludedHashes
           numMessages := ex.2 + r.1.numMessages },
         .mk t.hashD t.items (setChild t.children c r.2) t.keyv)
termination_by pfx.length - i
decreasing_by
  have hi : i < pfx.length := by
    by_contra hcon
    rw [List.getElem?_eq_none (by omega)] at _h
    exact Option.noConfusion _h
  omega

theorem getSnapshotTh_frame (pfx : Bytes) (t : TrieNode) (i : Nat) :
    (getSnapshotTh pfx t i).2 = t := by
  rw [getSnapshotTh]
  split
  · rfl
  · split
    · rfl
    · rename_i c hp
      split
      · rfl
      · rename_i child hc
        have hi : i < pfx.length := by
          by_contra hcon
          rw [List.getElem?_eq_none (by omega)] at hp
          exact Option.noConfusion hp
        have ih := getSnapshotTh_frame pfx child (i + 1)
        dsimp only
        rw [ih, setChild_self _ _ _ hc]
        cases t; rfl
termination_by pfx.length - i
decreasing_by omega

mutual

/-- State-threading rendering of `getAllValues`. -/
def getAllValuesTh : TrieNode → (List Bytes) × TrieNode
  | .mk h n [] k => ((match k with | some k0 => [k0] | none => []), .mk h n [] k)
  | .mk h n (q :: qs) k =>
    let rs := valuesOfChildrenTh (q :: qs)
    (rs.1, .mk h n rs.2 k)

def valuesOfChildrenTh : List (Nat × TrieNode) → (List Bytes) × (List (Nat × TrieNode))
  | [] => ([], [])
  | (c, u) :: rest =>
    let r1 := getAllValuesTh u
    let r2 := valuesOfChildrenTh rest
    (r1.1 ++ r2.1, (c, r1.2) :: r2.2)

end

mutual

theorem getAllValuesTh_frame : ∀ t : TrieNode, (getAllValuesTh t).2 = t
  | .mk h n [] k => rfl
  | .mk h n (q :: qs) k => by
    rw [getAllValuesTh]
    dsimp only
    rw [valuesOfChildrenTh_frame (q :: qs)]

theorem valuesOfChildrenTh_frame :
    ∀ cs : List (Nat × TrieNode), (valuesOfChildrenTh cs).2 = cs
  | [] => rfl
  | (c, u) :: rest => by
    rw [valuesOfChildrenTh]
    dsimp only
    rw [getAllValuesTh_frame u, valuesOfChildrenTh_frame rest]

end

end TrieNode

/-- C10: the read operations — `exists`, `getSnapshot`, `getNode`,
`getAllValues` — leave the trie unchanged: the state-threading renderings of
the source methods (which contain no field writes) return the trie exactly
as given, hence identical root hash, item count and structure. -/
theorem readOps_frame :
    (∀ (key : Bytes) (t : TrieNode) (i : Nat), (TrieNode.existsTh key t i).2 = t) ∧
    (∀ (pfx : Bytes) (t : TrieNode) (i : Nat), (TrieNode.getSnapshotTh pfx t i).2 = t) ∧
    (∀ (pfx : Bytes) (t : TrieNode), (TrieNode.getNodeTh t pfx).2 = t) ∧
    (∀ t : TrieNode, (TrieNode.getAllValuesTh t).2 = t) :=
  ⟨TrieNode.existsTh_frame, TrieNode.getSnapshotTh_frame,
   TrieNode.getNodeTh_frame, TrieNode.getAllValuesTh_frame⟩

/-! ## Order theory for the JS children sort -/

theorem strLt_irrefl : ∀ l : List Nat, strLt l l = false := by
  intro l
  induction l with
  | nil => rfl
  | cons a as ih => simp [strLt, ih]

theorem strLt_asymm : ∀ a b : List Nat, strLt a b = true → strLt b a = false := by
  intro a
  induction a with
  | nil => intro b h; cases b <;> simp_all [strLt]
  | cons x xs ih =>
    intro b h
    cases b with
    | nil => simp [strLt] at h
    | cons y ys =>
      rw [strLt] at h ⊢
      split_ifs at h ⊢ <;> first | rfl | omega | exact ih ys h | simp_all

theorem strLt_trans : ∀ a b c : List Nat,
    strLt a b = true → strLt b c = true → strLt a c = true := by
  intro a
  induction a with
  | nil =>
    intro b c hab hbc
    cases b <;> cases c <;> simp_all [strLt]
  | cons x xs ih =>
    intro b c hab hbc
    cases b with
    | nil => simp [strLt] at hab
    | cons y ys =>
      cases c with
      | nil => simp [strLt] at hbc
      | cons z zs =>
        rw [strLt] at hab hbc ⊢
        split_ifs at hab hbc ⊢ <;>
          first | rfl | omega | exact ih ys zs hab hbc | simp_all

theorem strLt_total : ∀ a b : List Nat, a ≠ b → strLt a b = true ∨ strLt b a = true := by
  intro a
  induction a with
  | nil => intro b h; cases b <;> simp_all [strLt]
  | cons x xs ih =>
    intro b h
    cases b with
    | nil => simp [strLt]
    | cons y ys =>
      rw [strLt, strLt]
      by_cases hxy : x < y
      · left; rw [if_pos hxy]
      · by_cases hyx : y < x
        · right; rw [if_pos hyx]
        · have hxe : x = y := by omega
          subst hxe
          have hne : xs ≠ ys := by intro he; exact h (by rw [he])
          rcases ih ys hne with h1 | h1
          · left
            rw [if_neg hxy, if_neg hxy, h1]
          · right
            rw [if_neg hxy, if_neg hxy, h1]

/-- Value of a most-significant-first digit list. -/
def ofDigits (l : List Nat) : Nat := l.foldl (fun a d => 10 * a + d) 0

theorem ofDigits_decDigits : ∀ n, ofDigits (decDigits n) = n := by
  intro n
  induction n using Nat.strong_induction_on with
  | _ n ih =>
    rw [decDigits_eq]
    by_cases h10 : n < 10
    · simp [ofDigits, h10]
    · rw [if_neg h10]
      have hdiv : n / 10 < n := Nat.div_lt_self (by omega) (by omega)
      rw [ofDigits, List.foldl_append]
      rw [show List.foldl (fun a d => 10 * a + d) 0 (decDigits (n / 10)) =
        ofDigits (decDigits (n / 10)) from rfl, ih (n / 10) hdiv]
      simp [Nat.div_add_mod]

theorem decDigits_inj {a b : Nat} (h : decDigits a = decDigits b) : a = b := by
  have := ofDigits_decDigits a
  rw [h, ofDigits_decDigits] at this
  omega

theorem jsLt_irrefl (a : Nat) : jsLt a a = false := strLt_irrefl _

theorem jsLt_asymm {a b : Nat} (h : jsLt a b = true) : jsLt b a = false := strLt_asymm _ _ h

theorem jsLt_trans {a b c : Nat} (h1 : jsLt a b = true) (h2 : jsLt b c = true) :
    jsLt a c = true := strLt_trans _ _ _ h1 h2

theorem jsLt_total {a b : Nat} (h : a ≠ b) : jsLt a b = true ∨ jsLt b a = true :=
  strLt_total _ _ (fun he => h (decDigits_inj he))

theorem jsLt_ne {a b : Nat} (h : jsLt a b = true) : a ≠ b := by
  intro he; subst he; rw [jsLt_irrefl] at h; cases h

namespace TrieNode

/-! ## Association-list and sorting lemmas for the children map -/

/-- The byte labels of a children map, in iteration order. -/
def labels (cs : List (Nat × TrieNode)) : List Nat := cs.map Prod.fst

/-- The children map is strictly sorted in the JS default order. -/
def pairSorted (cs : List (Nat × TrieNode)) : Prop :=
  List.Pairwise (fun q r => jsLt q.1 r.1 = true) cs

theorem pairSorted_nil : pairSorted [] := List.Pairwise.nil

theorem lookupChild_none_iff (cs : List (Nat × TrieNode)) (c : Nat) :
    lookupChild cs c = none ↔ c ∉ labels cs := by
  induction cs with
  | nil => simp [lookupChild, labels]
  | cons q qs ih =>
    rw [lookupChild]
    by_cases hq : q.1 = c
    · simp [hq, labels]
    · rw [if_neg hq, ih]
      simp only [labels, List.map_cons, List.mem_cons, not_or]
      constructor
      · intro h1
        exact ⟨fun he => hq he.symm, h1⟩
      · intro h1
        exact h1.2

theorem lookupChild_some_mem {cs : List (Nat × TrieNode)} {c : Nat} {u : TrieNode}
    (h : lookupChild cs c = some u) : (c, u) ∈ cs := by
  induction cs with
  | nil => simp [lookupChild] at h
  | cons q qs ih =>
    rw [lookupChild] at h
    by_cases hq : q.1 = c
    · rw [if_pos hq] at h
      rcases q with ⟨qc, qu⟩
      simp only at hq
      subst hq
      cases h
      exact List.mem_cons_self _ _
    · rw [if_neg hq] at h
      exact List.mem_cons_of_mem _ (ih h)

theorem lookupChild_decomp {cs : List (Nat × TrieNode)} {c : Nat} {u : TrieNode}
    (h : lookupChild cs c = some u) :
    ∃ A B, cs = A ++ (c, u) :: B ∧ c ∉ labels A := by
  induction cs with
  | nil => simp [lookupChild] at h
  | cons q qs ih =>
    rw [lookupChild] at h
    by_cases hq : q.1 = c
    · rw [if_pos hq] at h
      cases h
      exact ⟨[], qs, by cases q; simp_all, by simp [labels]⟩
    · rw [if_neg hq] at h
      obtain ⟨A, B, hAB, hA⟩ := ih h
      refine ⟨q :: A, B, by rw [hAB, List.cons_append], ?_⟩
      simp only [labels, List.map_cons, List.mem_cons, not_or]
      exact ⟨fun he => hq he.symm, hA⟩

theorem lookupChild_of_mem {cs : List (Nat × TrieNode)} {c : Nat} {u : TrieNode}
    (hnd : (labels cs).Nodup) (hm : (c, u) ∈ cs) : lookupChild cs c = some u := by
  induction cs with
  | nil => simp at hm
  | cons q qs ih =>
    rcases List.mem_cons.mp hm with he | hm'
    · subst he
      simp [lookupChild]
    · rw [lookupChild]
      have hq : q.1 ≠ c := by
        intro he
        simp only [labels, List.map_cons, List.nodup_cons] at hnd
        exact hnd.1 (he ▸ (List.mem_map.mpr ⟨(c, u), hm', rfl⟩))
      rw [if_neg hq]
      exact ih (by simp only [labels, List.map_cons, List.nodup_cons] at hnd; exact hnd.2) hm'

theorem setChild_decomp (A B : List (Nat × TrieNode)) (c : Nat) (u v : TrieNode)
    (hA : c ∉ labels A) : setChild (A ++ (c, u) :: B) c v = A ++ (c, v) :: B := by
  induction A with
  | nil => simp [setChild]
  | cons q qs ih =>
    simp only [labels, List.map_cons, List.mem_cons, not_or] at hA
    rw [List.cons_append, setChild, if_neg (fun he => hA.1 he.symm), ih hA.2,
      List.cons_append]

theorem eraseChild_decomp (A B : List (Nat × TrieNode)) (c : Nat) (u : TrieNode)
    (hA : c ∉ labels A) : eraseChild (A ++ (c, u) :: B) c = A ++ B := by
  induction A with
  | nil => simp [eraseChild]
  | cons q qs ih =>
    simp only [labels, List.map_cons, List.mem_cons, not_or] at hA
    rw [List.cons_append, eraseChild, if_neg (fun he => hA.1 he.symm), ih hA.2,
      List.cons_append]

theorem insByJs_perm (x : Nat × TrieNode) (cs : List (Nat × TrieNode)) :
    List.Perm (insByJs x cs) (x :: cs) := by
  induction cs with
  | nil => exact List.Perm.refl _
  | cons y ys ih =>
    rw [insByJs]
    by_cases h : jsLt x.1 y.1 = true
    · rw [if_pos h]
    · rw [if_neg h]
      exact (List.Perm.cons y ih).trans (List.Perm.swap x y ys)

theorem sortByJs_perm (cs : List (Nat × TrieNode)) : List.Perm (sortByJs cs) cs := by
  induction cs with
  | nil => exact List.Perm.refl _
  | cons x xs ih =>
    rw [sortByJs]
    exact (insByJs_perm x (sortByJs xs)).trans (List.Perm.cons x ih)

theorem insByJs_sorted (x : Nat × TrieNode) (cs : List (Nat × TrieNode))
    (hs : pairSorted cs) (hx : ∀ q ∈ cs, q.1 ≠ x.1) : pairSorted (insByJs x cs) := by
  induction cs with
  | nil => exact List.pairwise_singleton _ _
  | cons y ys ih =>
    rw [insByJs]
    by_cases h : jsLt x.1 y.1 = true
    · rw [if_pos h]
      refine List.Pairwise.cons ?_ hs
      intro q hq
      rcases List.mem_cons.mp hq with he | hm
      · subst he; exact h
      · exact jsLt_trans h (List.rel_of_pairwise_cons hs hm)
    · rw [if_neg h]
      have hyx : jsLt y.1 x.1 = true := by
        rcases jsLt_total (fun he => (hx y (by simp) he.symm)) with h1 | h1
        · exact absurd h1 h
        · exact h1
      refine List.Pairwise.cons ?_ (ih (List.Pairwise.sublist (List.sublist_cons_self y ys) hs)
        (fun q hq => hx q (List.mem_cons_of_mem _ hq)))
      intro q hq
      have hm := (insByJs_perm x ys).mem_iff.mp hq
      rcases List.mem_cons.mp hm with he | hm'
      · subst he; exact hyx
      · exact List.rel_of_pairwise_cons hs hm'

theorem sortByJs_sorted (cs : List (Nat × TrieNode)) (hnd : (labels cs).Nodup) :
    pairSorted (sortByJs cs) := by
  induction cs with
  | nil => exact pairSorted_nil
  | cons x xs ih =>
    simp only [labels, List.map_cons, List.nodup_cons] at hnd
    rw [sortByJs]
    refine insByJs_sorted x (sortByJs xs) (ih hnd.2) ?_
    intro q hq he
    exact hnd.1 (he ▸ List.mem_map.mpr ⟨q, (sortByJs_perm xs).mem_iff.mp hq, rfl⟩)

theorem pairSorted_labels_nodup {cs : List (Nat × TrieNode)} (hs : pairSorted cs) :
    (labels cs).Nodup := by
  rw [labels]
  show List.Pairwise (fun a b => a ≠ b) (cs.map Prod.fst)
  rw [List.pairwise_map]
  exact hs.imp fun hab => jsLt_ne hab

end TrieNode

namespace TrieNode

/-! ## Structural induction over the nested trie type -/

theorem trieInd {motive : TrieNode → Prop}
    (h : ∀ hd n cs k, (∀ c u, (c, u) ∈ cs → motive u) → motive (.mk hd n cs k)) :
    ∀ t, motive t := by
  have aux : ∀ (m : Nat) (t : TrieNode), sizeOf t ≤ m → motive t := by
    intro m
    induction m with
    | zero =>
      intro t ht
      rcases t with ⟨hd, n, cs, k⟩
      simp only [TrieNode.mk.sizeOf_spec] at ht
      omega
    | succ m ih =>
      intro t ht
      rcases t with ⟨hd, n, cs, k⟩
      refine h hd n cs k ?_
      intro c u hm
      refine ih u ?_
      have h1 : sizeOf (c, u) < sizeOf cs := List.sizeOf_lt_of_mem hm
      have h2 : sizeOf u < sizeOf (c, u) := by simp only [Prod.mk.sizeOf_spec]; omega
      have h3 : sizeOf cs < sizeOf (TrieNode.mk hd n cs k) := by
        simp only [TrieNode.mk.sizeOf_spec]; omega
      omega
  intro t
  exact aux (sizeOf t) t le_rfl

/-! ## Well-formedness of reachable (nonempty) tries

`WFNode p t` says `t` is a valid nonempty subtree whose root sits at the
byte path `p`: a keyed leaf only at depth ≥ `TIMESTAMP_LENGTH` with the path
as a proper prefix of its key, or an internal node whose children are
js-sorted, hashed in stored order, labelled consistently with their key
bytes, and (at compactable depths) holding at least two items. -/

/-- Total `_items` of a children map. -/
def sumItems (cs : List (Nat × TrieNode)) : Int := cs.foldr (fun q a => q.2.items + a) 0

theorem sumItems_append (A B : List (Nat × TrieNode)) :
    sumItems (A ++ B) = sumItems A + sumItems B := by
  induction A with
  | nil => simp [sumItems]
  | cons q qs ih => simp [sumItems, List.foldr_cons] at ih ⊢; omega

theorem sumItems_cons (q : Nat × TrieNode) (qs : List (Nat × TrieNode)) :
    sumItems (q :: qs) = q.2.items + sumItems qs := rfl

mutual

def WFNode (p : Bytes) : TrieNode → Prop
  | .mk h n [] k =>
    ∃ kb, k = some kb ∧ TIMESTAMP_LENGTH ≤ p.length ∧ p.length < kb.length ∧
      kb.take p.length = p ∧ n = 1 ∧ h = some (computeHash [] (some kb))
  | .mk h n (q :: qs) k =>
    k = none ∧ pairSorted (q :: qs) ∧ h = some (computeHash (q :: qs) none) ∧
    n = sumItems (q :: qs) ∧ (TIMESTAMP_LENGTH ≤ p.length → 2 ≤ n) ∧
    WFChildren p (q :: qs)

def WFChildren (p : Bytes) : List (Nat × TrieNode) → Prop
  | [] => True
  | (c, u) :: rest => WFNode (p ++ [c]) u ∧ WFChildren p rest

end

theorem WFChildren_iff (p : Bytes) (cs : List (Nat × TrieNode)) :
    WFChildren p cs ↔ ∀ c u, (c, u) ∈ cs → WFNode (p ++ [c]) u := by
  induction cs with
  | nil => simp [WFChildren]
  | cons q qs ih =>
    rcases q with ⟨c0, u0⟩
    rw [WFChildren, ih]
    constructor
    · rintro ⟨h1, h2⟩ c u hm
      rcases List.mem_cons.mp hm with he | hm'
      · cases he; exact h1
      · exact h2 c u hm'
    · intro hh
      exact ⟨hh c0 u0 (by simp), fun c u hm => hh c u (List.mem_cons_of_mem _ hm)⟩

theorem WFChildren_append (p : Bytes) (A B : List (Nat × TrieNode)) :
    WFChildren p (A ++ B) ↔ WFChildren p A ∧ WFChildren p B := by
  rw [WFChildren_iff, WFChildren_iff, WFChildren_iff]
  constructor
  · intro hh
    exact ⟨fun c u hm => hh c u (by simp [hm]), fun c u hm => hh c u (by simp [hm])⟩
  · rintro ⟨h1, h2⟩ c u hm
    rcases List.mem_append.mp hm with hm' | hm'
    · exact h1 c u hm'
    · exact h2 c u hm'

theorem mem_valuesOfChildren (kk : Bytes) (cs : List (Nat × TrieNode)) :
    kk ∈ valuesOfChildren cs ↔ ∃ c u, (c, u) ∈ cs ∧ kk ∈ getAllValues u := by
  induction cs with
  | nil => simp [valuesOfChildren]
  | cons q qs ih =>
    rcases q with ⟨c0, u0⟩
    rw [valuesOfChildren, List.mem_append, ih]
    constructor
    · rintro (hm | ⟨c, u, hm, hv⟩)
      · exact ⟨c0, u0, by simp, hm⟩
      · exact ⟨c, u, List.mem_cons_of_mem _ hm, hv⟩
    · rintro ⟨c, u, hm, hv⟩
      rcases List.mem_cons.mp hm with he | hm'
      · cases he; left; exact hv
      · right; exact ⟨c, u, hm', hv⟩

theorem valuesOfChildren_append (A B : List (Nat × TrieNode)) :
    valuesOfChildren (A ++ B) = valuesOfChildren A ++ valuesOfChildren B := by
  induction A with
  | nil => simp [valuesOfChildren]
  | cons q qs ih =>
    rcases q with ⟨c0, u0⟩
    rw [List.cons_append, valuesOfChildren, valuesOfChildren, ih, List.append_assoc]

theorem getAllValues_internal (h : Option Digest) (n : Int) (q : Nat × TrieNode)
    (qs : List (Nat × TrieNode)) (k : Option Bytes) :
    getAllValues (.mk h n (q :: qs) k) = valuesOfChildren (q :: qs) := by
  rcases q with ⟨c0, u0⟩
  rfl

theorem getAllValues_leaf (h : Option Digest) (n : Int) (k : Option Bytes) :
    getAllValues (.mk h n [] k) = match k with | some k0 => [k0] | none => [] := rfl

/-- Splitting a `take` at a successor index. -/
theorem take_succ_eq {kk : Bytes} {i : Nat} (hlen : i < kk.length) :
    kk.take (i + 1) = kk.take i ++ [kk.get ⟨i, hlen⟩] := by
  rw [List.take_succ]
  congr 1
  rw [List.getElem?_eq_getElem hlen]
  rfl

theorem take_succ_decomp {kk p : Bytes} {i c : Nat} (hlen : i < kk.length)
    (hp : p.length = i) (h : kk.take (i + 1) = p ++ [c]) :
    kk.take i = p ∧ kk.get ⟨i, hlen⟩ = c := by
  rw [take_succ_eq hlen] at h
  have hlen2 : (kk.take i).length = p.length := by
    rw [List.length_take]
    omega
  obtain ⟨h1, h2⟩ := List.append_inj h hlen2
  refine ⟨h1, ?_⟩
  cases h2
  rfl

end TrieNode

namespace TrieNode

/-- Aggregate consequences of `WFChildren`: item sums count values, the
value lists of distinct children are disjoint, and every value extends the
path by its child's label byte. -/
theorem wfChildren_basic (p : Bytes) :
    ∀ cs2 : List (Nat × TrieNode),
      (∀ c u, (c, u) ∈ cs2 → ∀ p', WFNode p' u →
        getAllValues u ≠ [] ∧
        (∀ kk ∈ getAllValues u, kk.take p'.length = p' ∧ p'.length < kk.length) ∧
        u.items = ((getAllValues u).length : Int) ∧ (getAllValues u).Nodup) →
      WFChildren p cs2 → pairSorted cs2 →
      sumItems cs2 = ((valuesOfChildren cs2).length : Int) ∧
      (valuesOfChildren cs2).Nodup ∧
      (∀ kk ∈ valuesOfChildren cs2, ∃ c u, (c, u) ∈ cs2 ∧ kk ∈ getAllValues u ∧
        kk.take (p.length + 1) = p ++ [c]) ∧
      (∀ kk ∈ valuesOfChildren cs2, kk.take p.length = p ∧ p.length < kk.length) ∧
      (cs2 ≠ [] → valuesOfChildren cs2 ≠ []) := by
  intro cs2
  induction cs2 with
  | nil =>
    intro _ _ _
    refine ⟨rfl, by simp [valuesOfChildren], by simp [valuesOfChildren], by
      simp [valuesOfChildren], by simp⟩
  | cons q2 qs2 ih2 =>
    rintro hih hch2 hsort2
    rcases q2 with ⟨c2, u2⟩
    rw [WFChildren] at hch2
    obtain ⟨hwfu, hchrest⟩ := hch2
    obtain ⟨hneU, hprefU, hitemsU, hndU⟩ := hih c2 u2 (by simp) (p ++ [c2]) hwfu
    have hl1 : (p ++ [c2]).length = p.length + 1 := by simp
    rw [hl1] at hprefU
    obtain ⟨hsumR, hndR, hexR, hprefR, hneR⟩ :=
      ih2 (fun c u hm p' hw => hih c u (List.mem_cons_of_mem _ hm) p' hw) hchrest
        (List.Pairwise.of_cons hsort2)
    have hdecomp : valuesOfChildren ((c2, u2) :: qs2) =
        getAllValues u2 ++ valuesOfChildren qs2 := rfl
    rw [hdecomp]
    have hdisj : List.Disjoint (getAllValues u2) (valuesOfChildren qs2) := by
      intro kk hm1 hm2
      obtain ⟨c, u, hmc, _, htakec⟩ := hexR kk hm2
      have htake2 : kk.take (p.length + 1) = p ++ [c2] := (hprefU kk hm1).1
      have hcc : c2 = c := by
        have := htake2.symm.trans htakec
        simpa using this
      have hlt : jsLt c2 c = true :=
        List.rel_of_pairwise_cons hsort2 hmc
      exact jsLt_ne hlt hcc
    refine ⟨?_, ?_, ?_, ?_, ?_⟩
    · rw [sumItems_cons, List.length_append, hitemsU, hsumR]
      push_cast
      ring
    · exact List.Nodup.append hndU hndR hdisj
    · intro kk hm
      rcases List.mem_append.mp hm with hm1 | hm2
      · exact ⟨c2, u2, by simp, hm1, (hprefU kk hm1).1⟩
      · obtain ⟨c, u, hmc, hv, ht⟩ := hexR kk hm2
        exact ⟨c, u, List.mem_cons_of_mem _ hmc, hv, ht⟩
    · intro kk hm
      rcases List.mem_append.mp hm with hm1 | hm2
      · obtain ⟨ht, hlt⟩ := hprefU kk hm1
        have hlen : p.length < kk.length := by omega
        obtain ⟨h1, _⟩ := take_succ_decomp (by omega) rfl ht
        exact ⟨h1, hlen⟩
      · exact hprefR kk hm2
    · intro _
      intro hcon
      rw [List.append_eq_nil] at hcon
      exact hneU hcon.1

/-- Core consequences of well-formedness: the subtree's value list is
nonempty, every value extends the path and is strictly longer, `_items`
counts the values, and the values are distinct. -/
theorem wf_basic : ∀ t : TrieNode, ∀ p : Bytes, WFNode p t →
    getAllValues t ≠ [] ∧
    (∀ kk ∈ getAllValues t, kk.take p.length = p ∧ p.length < kk.length) ∧
    t.items = ((getAllValues t).length : Int) ∧
    (getAllValues t).Nodup := by
  intro t
  induction t using trieInd with
  | h hd n cs k ih =>
    intro p hwf
    match cs, ih, hwf with
    | [], _, hwf =>
      rw [WFNode] at hwf
      obtain ⟨kb, hk, hTL, hlen, htake, hn, hh⟩ := hwf
      subst hk
      rw [getAllValues_leaf]
      refine ⟨by simp, ?_, by simp [items, hn], by simp⟩
      intro kk hm
      rw [List.mem_singleton] at hm
      subst hm
      exact ⟨htake, hlen⟩
    | q :: qs, ih, hwf =>
      rw [WFNode] at hwf
      obtain ⟨hk, hsort, hh, hn, hTL, hch⟩ := hwf
      subst hk
      rw [getAllValues_internal]
      obtain ⟨hsum, hnd, _, hpref, hne⟩ :=
        wfChildren_basic p (q :: qs) (fun c u hm => ih c u hm) hch hsort
      exact ⟨hne (by simp), hpref, by simp [items, hn, hsum], hnd⟩

end TrieNode

namespace TrieNode

/-! ## Canonicity: a well-formed trie is determined by its value set -/

/-- Filtering a well-formed children map's values by the child byte at the
path depth recovers exactly that child's values. -/
theorem values_filter_block (p : Bytes) :
    ∀ cs : List (Nat × TrieNode), WFChildren p cs → pairSorted cs →
    ∀ c u, (c, u) ∈ cs →
    (valuesOfChildren cs).filter
      (fun kk => decide (kk.take (p.length + 1) = p ++ [c])) = getAllValues u := by
  intro cs
  induction cs with
  | nil => intro _ _ c u hm; simp at hm
  | cons q2 qs2 ih =>
    rintro hch hsort c u hm
    rcases q2 with ⟨c2, u2⟩
    rw [WFChildren] at hch
    obtain ⟨hwfu2, hchrest⟩ := hch
    have hdecomp : valuesOfChildren ((c2, u2) :: qs2) =
        getAllValues u2 ++ valuesOfChildren qs2 := rfl
    rw [hdecomp, List.filter_append]
    obtain ⟨_, hpref2, _, _⟩ := wf_basic u2 (p ++ [c2]) hwfu2
    have hl1 : (p ++ [c2]).length = p.length + 1 := by simp
    obtain ⟨hsumR, hndR, hexR, hprefR, hneR⟩ :=
      wfChildren_basic p qs2 (fun c' u' _ p' hw => wf_basic u' p' hw) hchrest
        (List.Pairwise.of_cons hsort)
    rcases List.mem_cons.mp hm with he | hm2
    · -- the head child itself
      have hc : c = c2 := by cases he; rfl
      have hu : u = u2 := by cases he; rfl
      subst hc
      subst hu
      have h1 : (getAllValues u).filter
          (fun kk => decide (kk.take (p.length + 1) = p ++ [c])) = getAllValues u := by
        rw [List.filter_eq_self]
        intro kk hkk
        have := (hpref2 kk hkk).1
        rw [hl1] at this
        simp [this]
      have h2 : (valuesOfChildren qs2).filter
          (fun kk => decide (kk.take (p.length + 1) = p ++ [c])) = [] := by
        rw [List.filter_eq_nil_iff]
        intro kk hkk
        obtain ⟨c', u', hmc', _, htakec'⟩ := hexR kk hkk
        have hne : c ≠ c' := jsLt_ne (List.rel_of_pairwise_cons hsort hmc')
        simp only [htakec', decide_eq_true_eq]
        intro hcon
        exact hne (by simpa using hcon.symm)
      rw [h1, h2, List.append_nil]
    · -- a child in the tail
      have hc2c : c2 ≠ c :=
        jsLt_ne (List.rel_of_pairwise_cons hsort hm2)
      have h1 : (getAllValues u2).filter
          (fun kk => decide (kk.take (p.length + 1) = p ++ [c])) = [] := by
        rw [List.filter_eq_nil_iff]
        intro kk hkk
        have := (hpref2 kk hkk).1
        rw [hl1] at this
        simp only [this, decide_eq_true_eq]
        intro hcon
        exact hc2c (by simpa using hcon)
      rw [h1, List.nil_append]
      exact ih hchrest (List.Pairwise.of_cons hsort) c u hm2

end TrieNode

namespace TrieNode

/-- A byte is a child label iff some value extends the path by it. -/
theorem labels_mem_iff (p : Bytes) (cs : List (Nat × TrieNode)) (hch : WFChildren p cs)
    (hsort : pairSorted cs) (c : Nat) :
    c ∈ labels cs ↔ ∃ kk ∈ valuesOfChildren cs, kk.take (p.length + 1) = p ++ [c] := by
  constructor
  · intro hm
    obtain ⟨q, hq, hqc⟩ := List.mem_map.mp hm
    have hqm : (c, q.2) ∈ cs := by
      rcases q with ⟨qc, qu⟩
      simp only at hqc
      subst hqc
      exact hq
    have hwfu := (WFChildren_iff p cs).mp hch c q.2 hqm
    obtain ⟨hne, hpref, _, _⟩ := wf_basic q.2 (p ++ [c]) hwfu
    rcases hne2 : getAllValues q.2 with _ | ⟨kk, _⟩
    · exact absurd hne2 hne
    · have hkk : kk ∈ getAllValues q.2 := by rw [hne2]; simp
      refine ⟨kk, (mem_valuesOfChildren kk cs).mpr ⟨c, q.2, hqm, hkk⟩, ?_⟩
      have := (hpref kk hkk).1
      rwa [show (p ++ [c]).length = p.length + 1 from by simp] at this
  · rintro ⟨kk, hkk, htak⟩
    obtain ⟨_, _, hex, _, _⟩ :=
      wfChildren_basic p cs (fun c' u' _ p' hw => wf_basic u' p' hw) hch hsort
    obtain ⟨c', u', hm', _, htak'⟩ := hex kk hkk
    have : c = c' := by
      have := htak.symm.trans htak'
      simpa using this
    subst this
    exact List.mem_map.mpr ⟨(c, u'), hm', rfl⟩

/-- Association lists with equal label sequences and agreeing values are
equal. -/
theorem assoc_eq_of : ∀ cs1 cs2 : List (Nat × TrieNode), labels cs1 = labels cs2 →
    (∀ c u1 u2, (c, u1) ∈ cs1 → (c, u2) ∈ cs2 → u1 = u2) → cs1 = cs2 := by
  intro cs1
  induction cs1 with
  | nil =>
    intro cs2 hl _
    cases cs2 with
    | nil => rfl
    | cons q2 r2 => simp [labels] at hl
  | cons q1 r1 ih =>
    intro cs2 hl hpe
    cases cs2 with
    | nil => simp [labels] at hl
    | cons q2 r2 =>
      rcases q1 with ⟨c1, u1⟩
      rcases q2 with ⟨c2, u2⟩
      simp only [labels, List.map_cons, List.cons.injEq] at hl
      obtain ⟨hc, hrest⟩ := hl
      subst hc
      have hu : u1 = u2 := hpe c1 u1 u2 (by simp) (by simp)
      subst hu
      rw [ih r2 hrest
        (fun c v1 v2 h1 h2 => hpe c v1 v2 (List.mem_cons_of_mem _ h1)
          (List.mem_cons_of_mem _ h2))]

end TrieNode

namespace TrieNode

instance : IsAntisymm Nat (fun a b => jsLt a b = true) :=
  ⟨fun _ _ h1 h2 => absurd h2 (by rw [jsLt_asymm h1]; simp)⟩

/-- Canonicity: two well-formed subtrees at the same path holding the same
values (up to permutation) are bit-for-bit identical. -/
theorem canon : ∀ t1 t2 : TrieNode, ∀ p : Bytes, WFNode p t1 → WFNode p t2 →
    List.Perm (getAllValues t1) (getAllValues t2) → t1 = t2 := by
  intro t1
  induction t1 using trieInd with
  | h hd1 n1 cs1 k1 ih =>
    intro t2 p hw1 hw2 hperm
    rcases t2 with ⟨hd2, n2, cs2, k2⟩
    have hw2' := hw2
    have hw1' := hw1
    match cs1, ih, hw1, hperm with
    | [], _, hw1, hperm =>
      rw [WFNode] at hw1
      obtain ⟨kb, hk, hTL, hklen, htake, hn, hh⟩ := hw1
      subst hk
      match cs2, hw2, hperm with
      | [], hw2, hperm =>
        rw [WFNode] at hw2
        obtain ⟨kb2, hk2, _, _, _, hn2, hh2⟩ := hw2
        subst hk2
        rw [getAllValues_leaf, getAllValues_leaf] at hperm
        have hkb : kb = kb2 := by
          have := List.perm_singleton.mp hperm
          simpa using this
        subst hkb
        rw [hn, hn2, hh, hh2]
      | q2 :: qs2, hw2, hperm =>
        exfalso
        rw [WFNode] at hw2
        obtain ⟨_, _, _, hn2, hTL2, _⟩ := hw2
        obtain ⟨_, _, hitems2, _⟩ := wf_basic (.mk hd2 n2 (q2 :: qs2) k2) p hw2'
        have hlen1 : (getAllValues (TrieNode.mk hd1 n1 [] (some kb))).length = 1 := by
          rw [getAllValues_leaf]
          rfl
        have hlen2 := hperm.length_eq
        rw [hlen1] at hlen2
        rw [items] at hitems2
        have h2n : (2 : Int) ≤ n2 := hTL2 hTL
        rw [hitems2, ← hlen2] at h2n
        norm_num at h2n
    | q1 :: qs1, ih, hw1, hperm =>
      rw [WFNode] at hw1
      obtain ⟨hk1, hsort1, hh1, hn1, hTL1, hch1⟩ := hw1
      subst hk1
      match cs2, hw2, hperm with
      | [], hw2, hperm =>
        exfalso
        rw [WFNode] at hw2
        obtain ⟨kb2, hk2, hTL2, _, _, _, _⟩ := hw2
        subst hk2
        obtain ⟨_, _, hitems1, _⟩ := wf_basic (.mk hd1 n1 (q1 :: qs1) none) p hw1'
        have hlen2' : (getAllValues (TrieNode.mk hd2 n2 [] (some kb2))).length = 1 := by
          rw [getAllValues_leaf]
          rfl
        have hlen := hperm.length_eq
        rw [hlen2'] at hlen
        rw [items] at hitems1
        have h2n : (2 : Int) ≤ n1 := hTL1 hTL2
        rw [hitems1, hlen] at h2n
        norm_num at h2n
      | q2 :: qs2, hw2, hperm =>
        rw [WFNode] at hw2
        obtain ⟨hk2, hsort2, hh2, hn2, hTL2, hch2⟩ := hw2
        subst hk2
        rw [getAllValues_internal, getAllValues_internal] at hperm
        -- labels coincide
        have hmemiff : ∀ c, c ∈ labels (q1 :: qs1) ↔ c ∈ labels (q2 :: qs2) := by
          intro c
          rw [labels_mem_iff p _ hch1 hsort1 c, labels_mem_iff p _ hch2 hsort2 c]
          constructor
          · rintro ⟨kk, hkk, ht⟩
            exact ⟨kk, hperm.mem_iff.mp hkk, ht⟩
          · rintro ⟨kk, hkk, ht⟩
            exact ⟨kk, hperm.mem_iff.mpr hkk, ht⟩
        have hlab : labels (q1 :: qs1) = labels (q2 :: qs2) := by
          have hnd1 := pairSorted_labels_nodup hsort1
          have hnd2 := pairSorted_labels_nodup hsort2
          have hpl : List.Perm (labels (q1 :: qs1)) (labels (q2 :: qs2)) :=
            (List.perm_ext_iff_of_nodup hnd1 hnd2).mpr hmemiff
          have hs1 : List.Sorted (fun a b => jsLt a b = true) (labels (q1 :: qs1)) := by
            show List.Pairwise (fun a b => jsLt a b = true) ((q1 :: qs1).map Prod.fst)
            rw [List.pairwise_map]
            exact hsort1
          have hs2 : List.Sorted (fun a b => jsLt a b = true) (labels (q2 :: qs2)) := by
            show List.Pairwise (fun a b => jsLt a b = true) ((q2 :: qs2).map Prod.fst)
            rw [List.pairwise_map]
            exact hsort2
          exact List.eq_of_perm_of_sorted hpl hs1 hs2
        -- matching children are equal
        have hpe : ∀ c v1 v2, (c, v1) ∈ q1 :: qs1 → (c, v2) ∈ q2 :: qs2 → v1 = v2 := by
          intro c v1 v2 hm1 hm2
          have hwv1 := (WFChildren_iff p _).mp hch1 c v1 hm1
          have hwv2 := (WFChildren_iff p _).mp hch2 c v2 hm2
          have hf1 := values_filter_block p _ hch1 hsort1 c v1 hm1
          have hf2 := values_filter_block p _ hch2 hsort2 c v2 hm2
          have hfp : List.Perm (getAllValues v1) (getAllValues v2) := by
            rw [← hf1, ← hf2]
            exact hperm.filter _
          exact ih c v1 hm1 v2 (p ++ [c]) hwv1 hwv2 hfp
        have hcs : (q1 :: qs1) = (q2 :: qs2) := assoc_eq_of _ _ hlab hpe
        rw [hh1, hh2, hn1, hn2, hcs]

end TrieNode

namespace TrieNode

/-! ## Further structural helpers for the insert/delete specification -/

theorem mk_eta (t : TrieNode) : TrieNode.mk t.hashD t.items t.children t.keyv = t := by
  cases t
  rfl

theorem labels_append (A B : List (Nat × TrieNode)) :
    labels (A ++ B) = labels A ++ labels B := by
  rw [labels, labels, labels, List.map_append]

theorem pairSorted_iff_labels (cs : List (Nat × TrieNode)) :
    pairSorted cs ↔ List.Pairwise (fun a b => jsLt a b = true) (labels cs) := by
  rw [labels, List.pairwise_map]
  exact Iff.rfl

theorem pairSorted_set_mid (A B : List (Nat × TrieNode)) (c : Nat) (u v : TrieNode)
    (hs : pairSorted (A ++ (c, u) :: B)) : pairSorted (A ++ (c, v) :: B) := by
  rw [pairSorted_iff_labels] at hs ⊢
  rw [labels_append] at hs ⊢
  rw [show labels ((c, u) :: B) = c :: labels B from rfl] at hs
  rw [show labels ((c, v) :: B) = c :: labels B from rfl]
  exact hs

theorem pairSorted_of_sublist {l l' : List (Nat × TrieNode)} (hs : List.Sublist l l')
    (h : pairSorted l') : pairSorted l := List.Pairwise.sublist hs h

theorem pairSorted_mid_drop (A B : List (Nat × TrieNode)) (q : Nat × TrieNode)
    (hs : pairSorted (A ++ q :: B)) : pairSorted (A ++ B) :=
  pairSorted_of_sublist ((List.Sublist.refl A).append (List.sublist_cons_self q B)) hs

theorem insByJs_front (x : Nat × TrieNode) (ys : List (Nat × TrieNode))
    (h : ∀ y ∈ ys, jsLt x.1 y.1 = true) : insByJs x ys = x :: ys := by
  cases ys with
  | nil => rfl
  | cons y ys => rw [insByJs, if_pos (h y (by simp))]

theorem sortByJs_append_one (cs : List (Nat × TrieNode)) (x : Nat × TrieNode)
    (hs : pairSorted cs) (hx : ∀ q ∈ cs, q.1 ≠ x.1) :
    sortByJs (cs ++ [x]) = insByJs x cs := by
  induction cs with
  | nil => rfl
  | cons q qs ih =>
    rw [List.cons_append, sortByJs, ih (List.Pairwise.of_cons hs)
      (fun r hr => hx r (List.mem_cons_of_mem _ hr))]
    by_cases ht : jsLt x.1 q.1 = true
    · have hxqs : ∀ y ∈ qs, jsLt x.1 y.1 = true :=
        fun y hy => jsLt_trans ht (List.rel_of_pairwise_cons hs hy)
      rw [insByJs_front x qs hxqs, insByJs, if_neg (by rw [jsLt_asymm ht]; simp),
        insByJs_front q qs (fun y hy => List.rel_of_pairwise_cons hs hy), insByJs, if_pos ht]
    · have hqx : jsLt q.1 x.1 = true := by
        rcases jsLt_total (fun he => hx q (by simp) he) with h1 | h1
        · exact h1
        · exact absurd h1 ht
      have hfront : ∀ y ∈ insByJs x qs, jsLt q.1 y.1 = true := by
        intro y hy
        rcases List.mem_cons.mp ((insByJs_perm x qs).mem_iff.mp hy) with he | hm
        · subst he; exact hqx
        · exact List.rel_of_pairwise_cons hs hm
      rw [insByJs_front q (insByJs x qs) hfront, insByJs, if_neg ht]

theorem insByJs_decomp (x : Nat × TrieNode) :
    ∀ cs : List (Nat × TrieNode), ∃ A B, cs = A ++ B ∧ insByJs x cs = A ++ x :: B := by
  intro cs
  induction cs with
  | nil => exact ⟨[], [], rfl, rfl⟩
  | cons y ys ih =>
    rw [insByJs]
    by_cases ht : jsLt x.1 y.1 = true
    · exact ⟨[], y :: ys, rfl, by rw [if_pos ht]; rfl⟩
    · obtain ⟨A, B, hAB, hins⟩ := ih
      exact ⟨y :: A, B, by rw [hAB, List.cons_append],
        by rw [if_neg ht, hins, List.cons_append]⟩

theorem lookupChild_mid (A B : List (Nat × TrieNode)) (c : Nat) (u : TrieNode)
    (hA : c ∉ labels A) : lookupChild (A ++ (c, u) :: B) c = some u := by
  induction A with
  | nil => rw [List.nil_append, lookupChild, if_pos rfl]
  | cons q qs ih =>
    simp only [labels, List.map_cons, List.mem_cons, not_or] at hA
    rw [List.cons_append, lookupChild, if_neg (fun he => hA.1 he.symm)]
    exact ih (by simpa [labels] using hA.2)

theorem addChild_decomp (cs : List (Nat × TrieNode)) (c : Nat)
    (hs : pairSorted cs) (hc : c ∉ labels cs) :
    ∃ A B, cs = A ++ B ∧ addChild cs c = A ++ (c, newNode) :: B ∧
      c ∉ labels A ∧ c ∉ labels B := by
  have hx : ∀ q ∈ cs, q.1 ≠ c :=
    fun q hq he => hc (he ▸ List.mem_map.mpr ⟨q, hq, rfl⟩)
  obtain ⟨A, B, hAB, hins⟩ := insByJs_decomp (c, newNode) cs
  refine ⟨A, B, hAB, ?_, ?_, ?_⟩
  · rw [addChild, sortByJs_append_one cs (c, newNode) hs hx]
    exact hins
  · intro hmem
    exact hc (by rw [hAB, labels_append]; exact List.mem_append_left _ hmem)
  · intro hmem
    exact hc (by rw [hAB, labels_append]; exact List.mem_append_right _ hmem)

theorem sumItems_mid (A B : List (Nat × TrieNode)) (c : Nat) (u : TrieNode) :
    sumItems (A ++ (c, u) :: B) = sumItems A + u.items + sumItems B := by
  rw [sumItems_append, sumItems_cons]
  dsimp only
  omega

theorem valuesOfChildren_mid (A B : List (Nat × TrieNode)) (c : Nat) (u : TrieNode) :
    valuesOfChildren (A ++ (c, u) :: B) =
      valuesOfChildren A ++ (getAllValues u ++ valuesOfChildren B) := by
  rw [valuesOfChildren_append]
  rfl

theorem WFChildren_mid (p : Bytes) (A B : List (Nat × TrieNode)) (c : Nat) (u : TrieNode) :
    WFChildren p (A ++ (c, u) :: B) ↔
      WFChildren p A ∧ WFNode (p ++ [c]) u ∧ WFChildren p B := by
  rw [WFChildren_append, WFChildren]

theorem sumItems_ge_length (p : Bytes) :
    ∀ cs : List (Nat × TrieNode), WFChildren p cs → (cs.length : Int) ≤ sumItems cs := by
  intro cs
  induction cs with
  | nil => intro _; simp [sumItems]
  | cons q qs ih =>
    rintro hch
    rcases q with ⟨c, u⟩
    rw [WFChildren] at hch
    obtain ⟨hwf, hrest⟩ := hch
    obtain ⟨hne, _, hit, _⟩ := wf_basic u (p ++ [c]) hwf
    have h1 : 1 ≤ u.items := by
      rw [hit]
      have : 0 < (getAllValues u).length := List.length_pos.mpr hne
      omega
    have := ih hrest
    rw [sumItems_cons, List.length_cons]
    dsimp only
    push_cast
    omega

theorem WFNode_leaf_intro {p kb : Bytes} (h1 : TIMESTAMP_LENGTH ≤ p.length)
    (h2 : p.length < kb.length) (h3 : kb.take p.length = p) :
    WFNode p (.mk (some (computeHash [] (some kb))) 1 [] (some kb)) := by
  rw [WFNode]
  exact ⟨kb, rfl, h1, h2, h3, rfl, rfl⟩

theorem WFNode_leaf_elim {p : Bytes} {hd : Option Digest} {n : Int} {k : Option Bytes}
    (h : WFNode p (.mk hd n [] k)) :
    ∃ kb, k = some kb ∧ TIMESTAMP_LENGTH ≤ p.length ∧ p.length < kb.length ∧
      kb.take p.length = p ∧ n = 1 ∧ hd = some (computeHash [] (some kb)) := by
  rw [WFNode] at h
  exact h

theorem WFNode_internal_intro {p : Bytes} {n : Int} {cs : List (Nat × TrieNode)}
    (hne : cs ≠ []) (hk : pairSorted cs) (hch : WFChildren p cs) (hn : n = sumItems cs)
    (h2 : TIMESTAMP_LENGTH ≤ p.length → 2 ≤ n) :
    WFNode p (.mk (some (computeHash cs none)) n cs none) := by
  match cs, hne with
  | q :: qs, _ =>
    rw [WFNode]
    exact ⟨rfl, hk, rfl, hn, h2, hch⟩

theorem WFNode_internal_elim {p : Bytes} {hd : Option Digest} {n : Int}
    {cs : List (Nat × TrieNode)} {k : Option Bytes} (hne : cs ≠ [])
    (h : WFNode p (.mk hd n cs k)) :
    k = none ∧ pairSorted cs ∧ hd = some (computeHash cs none) ∧ n = sumItems cs ∧
      (TIMESTAMP_LENGTH ≤ p.length → 2 ≤ n) ∧ WFChildren p cs := by
  match cs, hne with
  | q :: qs, _ =>
    rw [WFNode] at h
    exact h

end TrieNode

namespace TrieNode

/-! ## Branch-level unfolding equations for the mutation workers -/

theorem insertGo_zero (key : Bytes) (t : TrieNode) (i : Nat) :
    insertGo key 0 t i = .error (.str "Key length exceeded") := rfl

theorem insertGo_succ (key : Bytes) (gas : Nat) (t : TrieNode) (i : Nat)
    (h : i < key.length) :
    insertGo key (gas + 1) t i =
      (if TIMESTAMP_LENGTH ≤ i ∧ t.isLeaf ∧ t.keyv = none then
        .ok (.mk (some (computeHash [] (some key))) (t.items + 1) [] (some key), true)
      else if TIMESTAMP_LENGTH ≤ i ∧ t.isLeaf ∧ t.keyv.getD [] = key then
        .ok (t, false)
      else if TIMESTAMP_LENGTH ≤ i ∧ t.isLeaf then
        match t.keyv with
        | none => .error (.hub "bad_request" "Cannot split a leaf node without a key and value")
        | some k0 =>
          if hs : i + 1 < k0.length then
            insertDescend (fun child => insertGo key gas child (i + 1))
              (splitNode t k0 i (by omega)) (key.get ⟨i, h⟩)
          else .error (.str "Key length exceeded")
      else insertDescend (fun child => insertGo key gas child (i + 1)) t
        (key.get ⟨i, h⟩)) := by
  rw [insertGo, dif_neg (by omega)]

theorem insertDescend_present (rec : TrieNode → Except ThrowVal (TrieNode × Bool))
    (t2 : TrieNode) (c : Nat) (child : TrieNode)
    (h : lookupChild t2.children c = some child) :
    insertDescend rec t2 c =
      match rec child with
      | .error e => .error e
      | .ok (child', false) =>
        .ok (.mk t2.hashD t2.items (setChild t2.children c child') t2.keyv, false)
      | .ok (child', true) =>
        .ok (.mk (some (computeHash (setChild t2.children c child') t2.keyv))
          (t2.items + 1) (setChild t2.children c child') t2.keyv, true) := by
  rw [insertDescend]
  simp only [h, Option.isNone_some, Bool.false_eq_true, if_false]

theorem insertDescend_absent (rec : TrieNode → Except ThrowVal (TrieNode × Bool))
    (t2 : TrieNode) (c : Nat) (h : lookupChild t2.children c = none)
    (h2 : lookupChild (addChild t2.children c) c = some newNode) :
    insertDescend rec t2 c =
      match rec newNode with
      | .error e => .error e
      | .ok (child', false) =>
        .ok (.mk t2.hashD t2.items (setChild (addChild t2.children c) c child') t2.keyv,
          false)
      | .ok (child', true) =>
        .ok (.mk (some (computeHash (setChild (addChild t2.children c) c child') t2.keyv))
          (t2.items + 1) (setChild (addChild t2.children c) c child') t2.keyv, true) := by
  rw [insertDescend]
  simp only [h, Option.isNone_none, if_true, h2]

theorem deleteGo_zero_leaf (key : Bytes) (t : TrieNode) (i : Nat) (hleaf : t.isLeaf) :
    deleteGo key 0 t i =
      (if t.keyv.getD [] = key then
        .ok (.mk (some (computeHash [] none)) (t.items - 1) [] none, true)
      else .ok (t, false)) := by
  rw [deleteGo, if_pos hleaf]

theorem deleteGo_succ (key : Bytes) (gas : Nat) (t : TrieNode) (i : Nat)
    (h : i < key.length) :
    deleteGo key (gas + 1) t i =
      (if t.isLeaf then
        (if t.keyv.getD [] = key then
          .ok (.mk (some (computeHash [] none)) (t.items - 1) [] none, true)
        else .ok (t, false))
      else
        match lookupChild t.children (key.get ⟨i, h⟩) with
        | none => .ok (t, false)
        | some child =>
          match deleteGo key gas child (i + 1) with
          | .error e => .error e
          | .ok (child', false) =>
            .ok (.mk t.hashD t.items (setChild t.children (key.get ⟨i, h⟩) child')
              t.keyv, false)
          | .ok (child', true) =>
            let items' := t.items - 1
            let cs1 := setChild t.children (key.get ⟨i, h⟩) child'
            let cs2 := if child'.items = 0 then eraseChild cs1 (key.get ⟨i, h⟩) else cs1
            let tC : TrieNode :=
              if items' = 1 ∧ cs2.length = 1 ∧ TIMESTAMP_LENGTH ≤ i then
                match cs2 with
                | (_, n2) :: rest =>
                  match n2.keyv with
                  | some k2 => .mk none items' rest (some k2)
                  | none => .mk none items' cs2 t.keyv
                | [] => .mk none items' cs2 t.keyv
              else .mk none items' cs2 t.keyv
            .ok (.mk (some (computeHash tC.children tC.keyv)) tC.items tC.children
              tC.keyv, true)) := by
  rw [deleteGo]
  by_cases hleaf : t.isLeaf
  · rw [if_pos hleaf, if_pos hleaf]
  · rw [if_neg hleaf, if_neg hleaf, dif_neg (by omega)]

end TrieNode

namespace TrieNode

/-- If the key's next byte is `c` and no child labelled `c` holds the key,
the key is not among the children's values. -/
theorem not_mem_values_of_child (p key : Bytes) (i : Nat) (cs : List (Nat × TrieNode))
    (hch : WFChildren p cs) (hsort : pairSorted cs) (hp : p.length = i)
    (hik : i < key.length) (htake : key.take i = p) (c : Nat)
    (hc : c = key.get ⟨i, hik⟩) (h : ∀ u, (c, u) ∈ cs → key ∉ getAllValues u) :
    key ∉ valuesOfChildren cs := by
  intro hmem
  obtain ⟨_, _, hex, _, _⟩ :=
    wfChildren_basic p cs (fun c' u' _ p' hw => wf_basic u' p' hw) hch hsort
  obtain ⟨c'', u'', hm'', hv'', ht''⟩ := hex key hmem
  have hky : key.take (p.length + 1) = p ++ [c] := by
    rw [hp, take_succ_eq hik, htake, hc]
  have hcc : c = c'' := by
    have := hky.symm.trans ht''
    simpa using this
  subst hcc
  exact h u'' hm'' hv''

/-- Inserting a key into an empty-like node (no children, no resident key,
zero items — a fresh `TrieNode` or `clearedNode`) builds the single-key
subtree: a compressed chain down to `TIMESTAMP_LENGTH`, then a leaf. -/
theorem insertGo_empty : ∀ (gas : Nat) (key : Bytes) (i : Nat) (hd : Option Digest),
    i + gas = key.length → i < key.length → TIMESTAMP_LENGTH < key.length →
    ∃ u, insertGo key gas (.mk hd 0 [] none) i = .ok (u, true) ∧
      WFNode (key.take i) u ∧ getAllValues u = [key] ∧ u.items = 1 := by
  intro gas
  induction gas with
  | zero => intro key i hd hgi hik hTL; omega
  | succ gas ih =>
    intro key i hd hgi hik hTL
    have hpl : (key.take i).length = i := by
      rw [List.length_take]; omega
    rw [insertGo_succ key gas _ i hik]
    by_cases hTLi : TIMESTAMP_LENGTH ≤ i
    · rw [if_pos ⟨hTLi, rfl, rfl⟩]
      refine ⟨_, rfl, ?_, ?_, ?_⟩
      · rw [WFNode]
        refine ⟨key, rfl, ?_, ?_, ?_, by simp [items], rfl⟩
        · rw [hpl]; exact hTLi
        · rw [hpl]; exact hik
        · rw [hpl]
      · rw [getAllValues_leaf]
      · show (0 : Int) + 1 = 1
        norm_num
    · rw [if_neg (fun hcon => hTLi hcon.1), if_neg (fun hcon => hTLi hcon.1),
        if_neg (fun hcon => hTLi hcon.1)]
      have hlk : lookupChild (TrieNode.mk hd 0 [] none).children (key.get ⟨i, hik⟩) =
          none := rfl
      have hadd : addChild (TrieNode.mk hd 0 [] none).children (key.get ⟨i, hik⟩) =
          [(key.get ⟨i, hik⟩, newNode)] := rfl
      have h2 : lookupChild
          (addChild (TrieNode.mk hd 0 [] none).children (key.get ⟨i, hik⟩))
          (key.get ⟨i, hik⟩) = some newNode := by
        rw [hadd, lookupChild, if_pos rfl]
      rw [insertDescend_absent _ _ _ hlk h2]
      obtain ⟨u0, heq, hwf0, hval0, hit0⟩ := ih key (i + 1) none (by omega)
        (by omega) hTL
      rw [show newNode = TrieNode.mk none 0 [] none from rfl, heq]
      dsimp only
      have hset : setChild (addChild (TrieNode.mk hd 0 [] none).children
          (key.get ⟨i, hik⟩)) (key.get ⟨i, hik⟩) u0 = [(key.get ⟨i, hik⟩, u0)] := by
        rw [hadd, setChild, if_pos rfl]
      rw [hset]
      refine ⟨_, rfl, ?_, ?_, ?_⟩
      · have hwfI : WFNode (key.take i)
            (.mk (some (computeHash [(key.get ⟨i, hik⟩, u0)] none)) (0 + 1)
              [(key.get ⟨i, hik⟩, u0)] none) := by
          refine WFNode_internal_intro (by simp) (List.pairwise_singleton _ _) ?_ ?_ ?_
          · rw [WFChildren, ← take_succ_eq hik]
            exact ⟨hwf0, trivial⟩
          · rw [sumItems_cons]
            show (0 : Int) + 1 = u0.items + sumItems []
            rw [hit0]
            rfl
          · intro hcon
            rw [hpl] at hcon
            omega
        exact hwfI
      · rw [getAllValues_internal]
        show getAllValues u0 ++ valuesOfChildren [] = [key]
        rw [hval0]
        rfl
      · show (0 : Int) + 1 = 1
        norm_num

end TrieNode

namespace TrieNode

theorem addChild_sorted (cs : List (Nat × TrieNode)) (c : Nat) (hs : pairSorted cs)
    (hc : c ∉ labels cs) : pairSorted (addChild cs c) := by
  rw [addChild]
  refine sortByJs_sorted _ ?_
  rw [labels_append]
  refine List.Nodup.append (pairSorted_labels_nodup hs) (by simp [labels]) ?_
  intro a ha hb
  have hac : a = c := by simpa [labels] using hb
  exact hc (hac ▸ ha)

theorem getAllValues_of_ne_nil (hd : Option Digest) (n : Int)
    (cs : List (Nat × TrieNode)) (k : Option Bytes) (hne : cs ≠ []) :
    getAllValues (.mk hd n cs k) = valuesOfChildren cs := by
  match cs, hne with
  | q :: qs, _ => exact getAllValues_internal hd n q qs k

end TrieNode

namespace TrieNode

theorem insertDescend_presentM (rec : TrieNode → Except ThrowVal (TrieNode × Bool))
    (h0 : Option Digest) (n0 : Int) (cs0 : List (Nat × TrieNode)) (k0 : Option Bytes)
    (c : Nat) (child : TrieNode) (h : lookupChild cs0 c = some child) :
    insertDescend rec (.mk h0 n0 cs0 k0) c =
      match rec child with
      | .error e => .error e
      | .ok (child', false) => .ok (.mk h0 n0 (setChild cs0 c child') k0, false)
      | .ok (child', true) =>
        .ok (.mk (some (computeHash (setChild cs0 c child') k0)) (n0 + 1)
          (setChild cs0 c child') k0, true) :=
  insertDescend_present rec (.mk h0 n0 cs0 k0) c child h

theorem insertDescend_absentM (rec : TrieNode → Except ThrowVal (TrieNode × Bool))
    (h0 : Option Digest) (n0 : Int) (cs0 : List (Nat × TrieNode)) (k0 : Option Bytes)
    (c : Nat) (h : lookupChild cs0 c = none)
    (h2 : lookupChild (addChild cs0 c) c = some newNode) :
    insertDescend rec (.mk h0 n0 cs0 k0) c =
      match rec newNode with
      | .error e => .error e
      | .ok (child', false) =>
        .ok (.mk h0 n0 (setChild (addChild cs0 c) c child') k0, false)
      | .ok (child', true) =>
        .ok (.mk (some (computeHash (setChild (addChild cs0 c) c child') k0)) (n0 + 1)
          (setChild (addChild cs0 c) c child') k0, true) :=
  insertDescend_absent rec (.mk h0 n0 cs0 k0) c h h2

end TrieNode

namespace TrieNode

/-- Effect of `insert` on a well-formed subtree sitting at depth `i` of the
key's path: a `false` return leaves the node untouched and means the key was
already present; a `true` return preserves well-formedness and adds exactly
the key to the subtree's values. -/
theorem insertGo_wf : ∀ (gas : Nat) (key : Bytes) (i : Nat) (t t' : TrieNode) (b : Bool),
    i + gas = key.length → TIMESTAMP_LENGTH < key.length →
    WFNode (key.take i) t → insertGo key gas t i = .ok (t', b) →
    (b = false → t' = t ∧ key ∈ getAllValues t) ∧
    (b = true → WFNode (key.take i) t' ∧ key ∉ getAllValues t ∧
      List.Perm (getAllValues t') (key :: getAllValues t)) := by
  intro gas
  induction gas with
  | zero =>
    intro key i t t' b hgi hTL hwf hins
    rw [insertGo_zero] at hins
    exact absurd hins (by simp)
  | succ gas ih =>
    intro key i t t' b hgi hTL hwf hins
    have hik : i < key.length := by omega
    have hpl : (key.take i).length = i := by rw [List.length_take]; omega
    have hstep : key.take i ++ [key.get ⟨i, hik⟩] = key.take (i + 1) :=
      (take_succ_eq hik).symm
    rw [insertGo_succ key gas t i hik] at hins
    rcases t with ⟨hd, n, cs, k⟩
    match cs, hwf, hins with
    | [], hwf, hins =>
      obtain ⟨kb, hk, hTLp, hkblen, hkbtake, hn1, hhd⟩ := WFNode_leaf_elim hwf
      subst hk
      rw [hpl] at hTLp hkblen hkbtake
      rw [if_neg (fun hcon => Option.noConfusion hcon.2.2)] at hins
      by_cases hkb : kb = key
      · rw [if_pos ⟨hTLp, rfl, hkb⟩] at hins
        simp only [Except.ok.injEq, Prod.mk.injEq] at hins
        obtain ⟨ht', hb⟩ := hins
        subst hb
        refine ⟨fun _ => ⟨ht'.symm, ?_⟩, fun hcon => absurd hcon (by simp)⟩
        rw [getAllValues_leaf]
        show key ∈ [kb]
        rw [hkb]
        exact List.mem_singleton.mpr rfl
      · rw [if_neg (fun hcon => hkb hcon.2.2), if_pos ⟨hTLp, rfl⟩] at hins
        dsimp only [keyv] at hins
        by_cases hs : i + 1 < kb.length
        · rw [dif_pos hs] at hins
          rw [splitNode] at hins
          dsimp only [items] at hins
          obtain ⟨c0, hc0⟩ : ∃ c0, kb.get ⟨i, show i < kb.length by omega⟩ = c0 := ⟨_, rfl⟩
          rw [hc0] at hins
          have hplen1 : (key.take i ++ [c0]).length = i + 1 := by simp [hpl]
          have htk1 : kb.take (i + 1) = key.take i ++ [c0] := by
            rw [take_succ_eq (show i < kb.length by omega), hkbtake, hc0]
          have hwfleaf0 : WFNode (key.take i ++ [c0])
              (.mk (some (computeHash [] (some kb))) 1 [] (some kb)) := by
            refine WFNode_leaf_intro ?_ ?_ ?_
            · rw [hplen1]; omega
            · rw [hplen1]; omega
            · rw [hplen1]; exact htk1
          by_cases hcc : c0 = key.get ⟨i, hik⟩
          · -- the resident key's branch byte equals the inserted key's
            have hlk : lookupChild
                [(c0, TrieNode.mk (some (computeHash [] (some kb))) 1 [] (some kb))]
                (key.get ⟨i, hik⟩) =
                some (TrieNode.mk (some (computeHash [] (some kb))) 1 [] (some kb)) := by
              rw [lookupChild, if_pos hcc]
            rw [insertDescend_presentM _ _ _ _ _ _ _ hlk] at hins
            rcases hrec : insertGo key gas
                (.mk (some (computeHash [] (some kb))) 1 [] (some kb)) (i + 1)
              with e | ⟨child', b'⟩
            · rw [hrec] at hins
              exact absurd hins (by simp)
            · rw [hrec] at hins
              have hwfleafK : WFNode (key.take (i + 1))
                  (.mk (some (computeHash [] (some kb))) 1 [] (some kb)) := by
                rw [← hstep, ← hcc]
                exact hwfleaf0
              obtain ⟨hF, hT⟩ := ih key (i + 1) _ child' b' (by omega) hTL hwfleafK hrec
              cases b' with
              | false =>
                exfalso
                obtain ⟨_, hkm⟩ := hF rfl
                rw [getAllValues_leaf] at hkm
                exact hkb (List.mem_singleton.mp hkm).symm
              | true =>
                dsimp only at hins
                rw [show setChild
                    [(c0, TrieNode.mk (some (computeHash [] (some kb))) 1 [] (some kb))]
                    (key.get ⟨i, hik⟩) child' = [(key.get ⟨i, hik⟩, child')] from by
                  rw [setChild, if_pos hcc]] at hins
                simp only [Except.ok.injEq, Prod.mk.injEq] at hins
                obtain ⟨ht', hb⟩ := hins
                subst hb
                subst ht'
                obtain ⟨hwfc, hnm, hpm⟩ := hT rfl
                have hlen2 : (getAllValues child').length = 2 := by
                  rw [hpm.length_eq]
                  rfl
                have hitc' := (wf_basic child' _ hwfc).2.2.1
                refine ⟨fun hcon => absurd hcon (by simp), fun _ => ⟨?_, ?_, ?_⟩⟩
                · refine WFNode_internal_intro (by simp) (List.pairwise_singleton _ _)
                    ?_ ?_ ?_
                  · rw [WFChildren, hstep]
                    exact ⟨hwfc, trivial⟩
                  · rw [sumItems_cons]
                    show n + 1 = child'.items + sumItems []
                    rw [show sumItems ([] : List (Nat × TrieNode)) = 0 from rfl]
                    rw [hitc', hlen2]
                    omega
                  · intro _
                    omega
                · rw [getAllValues_leaf]
                  intro hmem
                  exact hkb (List.mem_singleton.mp hmem).symm
                · rw [getAllValues_internal, getAllValues_leaf]
                  show List.Perm (getAllValues child' ++ valuesOfChildren []) (key :: [kb])
                  rw [show valuesOfChildren ([] : List (Nat × TrieNode)) = [] from rfl,
                    List.append_nil]
                  exact hpm
          · -- a fresh branch byte: a new child is created next to the resident leaf
            have hlkN : lookupChild
                [(c0, TrieNode.mk (some (computeHash [] (some kb))) 1 [] (some kb))]
                (key.get ⟨i, hik⟩) = none := by
              rw [lookupChild, if_neg hcc, lookupChild]
            have hcnl : key.get ⟨i, hik⟩ ∉ labels
                [(c0, TrieNode.mk (some (computeHash [] (some kb))) 1 [] (some kb))] := by
              simp only [labels, List.map_cons, List.map_nil, List.mem_singleton]
              exact fun he => hcc he.symm
            obtain ⟨A, B, hAB, hadd, hcA, hcB⟩ := addChild_decomp
              [(c0, TrieNode.mk (some (computeHash [] (some kb))) 1 [] (some kb))]
              (key.get ⟨i, hik⟩) (List.pairwise_singleton _ _) hcnl
            have h2 : lookupChild (addChild
                [(c0, TrieNode.mk (some (computeHash [] (some kb))) 1 [] (some kb))]
                (key.get ⟨i, hik⟩)) (key.get ⟨i, hik⟩) = some newNode := by
              rw [hadd]
              exact lookupChild_mid A B _ newNode hcA
            rw [insertDescend_absentM _ _ _ _ _ _ hlkN h2] at hins
            by_cases hi1 : i + 1 < key.length
            · obtain ⟨u0, heq0, hwf0, hval0, hit0⟩ := insertGo_empty gas key (i + 1)
                none (by omega) hi1 hTL
              have heq0' : insertGo key gas newNode (i + 1) = .ok (u0, true) := heq0
              rw [heq0'] at hins
              dsimp only at hins
              rw [hadd, setChild_decomp A B _ newNode u0 hcA] at hins
              simp only [Except.ok.injEq, Prod.mk.injEq] at hins
              obtain ⟨ht', hb⟩ := hins
              subst hb
              subst ht'
              have hch01 : WFChildren (key.take i)
                  [(c0, TrieNode.mk (some (computeHash [] (some kb))) 1 [] (some kb))] := by
                rw [WFChildren]
                exact ⟨hwfleaf0, trivial⟩
              have hchAB : WFChildren (key.take i) A ∧ WFChildren (key.take i) B := by
                rw [← WFChildren_append, ← hAB]
                exact hch01
              have hvAB : valuesOfChildren A ++ valuesOfChildren B = [kb] := by
                rw [← valuesOfChildren_append, ← hAB]
                rfl
              have hsAB : sumItems A + sumItems B = 1 := by
                rw [← sumItems_append, ← hAB, sumItems_cons]
                show (1 : Int) + 0 = 1
                norm_num
              refine ⟨fun hcon => absurd hcon (by simp), fun _ => ⟨?_, ?_, ?_⟩⟩
              · refine WFNode_internal_intro (by simp) ?_ ?_ ?_ ?_
                · refine pairSorted_set_mid A B _ newNode u0 ?_
                  rw [← hadd]
                  exact addChild_sorted _ _ (List.pairwise_singleton _ _) hcnl
                · rw [WFChildren_mid]
                  refine ⟨hchAB.1, ?_, hchAB.2⟩
                  rw [hstep]
                  exact hwf0
                · rw [sumItems_mid, hit0]
                  omega
                · intro _
                  omega
              · rw [getAllValues_leaf]
                intro hmem
                exact hkb (List.mem_singleton.mp hmem).symm
              · rw [getAllValues_of_ne_nil _ _ _ _ (by simp), valuesOfChildren_mid,
                  hval0, getAllValues_leaf, List.singleton_append]
                refine List.perm_middle.trans ?_
                rw [hvAB]
            · have hgas0 : gas = 0 := by omega
              rw [hgas0, insertGo_zero] at hins
              simp at hins
        · rw [dif_neg hs] at hins
          exact absurd hins (by simp)
    | q :: qs, hwf, hins =>
      obtain ⟨hk, hsort, hhd, hn, h2TL, hch⟩ := WFNode_internal_elim (by simp) hwf
      subst hk
      have hleafF : (TrieNode.mk hd n (q :: qs) none).isLeaf = false := rfl
      rw [if_neg (fun hcon => by rw [hleafF] at hcon; exact Bool.noConfusion hcon.2.1),
        if_neg (fun hcon => by rw [hleafF] at hcon; exact Bool.noConfusion hcon.2.1),
        if_neg (fun hcon => by rw [hleafF] at hcon; exact Bool.noConfusion hcon.2)] at hins
      rcases hlk : lookupChild (q :: qs) (key.get ⟨i, hik⟩) with _ | child
      · -- no child on the key's byte: a fresh node is created and filled
        have hclab : key.get ⟨i, hik⟩ ∉ labels (q :: qs) :=
          (lookupChild_none_iff _ _).mp hlk
        obtain ⟨A, B, hAB, hadd, hcA, hcB⟩ :=
          addChild_decomp (q :: qs) (key.get ⟨i, hik⟩) hsort hclab
        have h2 : lookupChild (addChild (q :: qs) (key.get ⟨i, hik⟩))
            (key.get ⟨i, hik⟩) = some newNode := by
          rw [hadd]
          exact lookupChild_mid A B _ newNode hcA
        rw [insertDescend_absentM _ _ _ _ _ _ hlk h2] at hins
        by_cases hi1 : i + 1 < key.length
        · obtain ⟨u0, heq0, hwf0, hval0, hit0⟩ := insertGo_empty gas key (i + 1)
            none (by omega) hi1 hTL
          have heq0' : insertGo key gas newNode (i + 1) = .ok (u0, true) := heq0
          rw [heq0'] at hins
          dsimp only at hins
          rw [hadd, setChild_decomp A B _ newNode u0 hcA] at hins
          simp only [Except.ok.injEq, Prod.mk.injEq] at hins
          obtain ⟨ht', hb⟩ := hins
          subst hb
          subst ht'
          have hchAB : WFChildren (key.take i) A ∧ WFChildren (key.take i) B := by
            rw [← WFChildren_append, ← hAB]
            exact hch
          refine ⟨fun hcon => absurd hcon (by simp), fun _ => ⟨?_, ?_, ?_⟩⟩
          · refine WFNode_internal_intro (by simp) ?_ ?_ ?_ ?_
            · refine pairSorted_set_mid A B _ newNode u0 ?_
              rw [← hadd]
              exact addChild_sorted _ _ hsort hclab
            · rw [WFChildren_mid]
              refine ⟨hchAB.1, ?_, hchAB.2⟩
              rw [hstep]
              exact hwf0
            · rw [sumItems_mid, hit0]
              have hsAB : sumItems A + sumItems B = n := by
                rw [← sumItems_append, ← hAB]
                exact hn.symm
              omega
            · intro hTLp
              have := h2TL hTLp
              omega
          · rw [getAllValues_internal]
            refine not_mem_values_of_child (key.take i) key i (q :: qs) hch hsort hpl
              hik rfl _ rfl ?_
            intro u hm
            exact (hclab (List.mem_map.mpr ⟨(_, u), hm, rfl⟩)).elim
          · rw [getAllValues_of_ne_nil _ _ _ _ (by simp), valuesOfChildren_mid, hval0,
              getAllValues_internal, hAB, valuesOfChildren_append]
            exact List.perm_middle
        · have hgas0 : gas = 0 := by omega
          rw [hgas0, insertGo_zero] at hins
          simp at hins
      · -- the key's byte has a child: recurse into it
        have hmem := lookupChild_some_mem hlk
        obtain ⟨A, B, hAB, hcA⟩ := lookupChild_decomp hlk
        have hwfchild : WFNode (key.take (i + 1)) child := by
          rw [← hstep]
          exact (WFChildren_iff _ _).mp hch _ _ hmem
        rw [insertDescend_presentM _ _ _ _ _ _ _ hlk] at hins
        rcases hrec : insertGo key gas child (i + 1) with e | ⟨child', b'⟩
        · rw [hrec] at hins
          simp at hins
        · rw [hrec] at hins
          obtain ⟨hF, hT⟩ := ih key (i + 1) child child' b' (by omega) hTL hwfchild hrec
          cases b' with
          | false =>
            obtain ⟨hc', hkm⟩ := hF rfl
            subst hc'
            dsimp only at hins
            rw [setChild_self _ _ _ hlk] at hins
            simp only [Except.ok.injEq, Prod.mk.injEq] at hins
            obtain ⟨ht', hb⟩ := hins
            subst hb
            refine ⟨fun _ => ⟨ht'.symm, ?_⟩, fun hcon => absurd hcon (by simp)⟩
            rw [getAllValues_internal]
            exact (mem_valuesOfChildren _ _).mpr ⟨_, child', hmem, hkm⟩
          | true =>
            obtain ⟨hwfc, hnm, hpm⟩ := hT rfl
            dsimp only at hins
            rw [hAB, setChild_decomp A B _ child child' hcA] at hins
            simp only [Except.ok.injEq, Prod.mk.injEq] at hins
            obtain ⟨ht', hb⟩ := hins
            subst hb
            subst ht'
            have hchABc : WFChildren (key.take i) A ∧
                WFNode (key.take i ++ [key.get ⟨i, hik⟩]) child ∧
                WFChildren (key.take i) B := by
              rw [← WFChildren_mid, ← hAB]
              exact hch
            have hitc := (wf_basic child _ hwfchild).2.2.1
            have hitc' := (wf_basic child' _ hwfc).2.2.1
            have hlenc' := hpm.length_eq
            rw [List.length_cons] at hlenc'
            refine ⟨fun hcon => absurd hcon (by simp), fun _ => ⟨?_, ?_, ?_⟩⟩
            · refine WFNode_internal_intro (by simp) ?_ ?_ ?_ ?_
              · refine pairSorted_set_mid A B _ child child' ?_
                rw [← hAB]
                exact hsort
              · rw [WFChildren_mid]
                refine ⟨hchABc.1, ?_, hchABc.2.2⟩
                rw [hstep]
                exact hwfc
              · rw [sumItems_mid]
                have hns : n = sumItems A + child.items + sumItems B := by
                  rw [hn, hAB, sumItems_mid]
                omega
              · intro hTLp
                have := h2TL hTLp
                omega
            · rw [getAllValues_internal]
              refine not_mem_values_of_child (key.take i) key i (q :: qs) hch hsort hpl
                hik rfl _ rfl ?_
              intro u hm
              have hlu := lookupChild_of_mem (pairSorted_labels_nodup hsort) hm
              rw [hlk] at hlu
              cases hlu
              exact hnm
            · rw [getAllValues_of_ne_nil _ _ _ _ (by simp), valuesOfChildren_mid,
                getAllValues_internal, hAB, valuesOfChildren_mid]
              have hstep1 : List.Perm
                  (valuesOfChildren A ++ (getAllValues child' ++ valuesOfChildren B))
                  (valuesOfChildren A ++
                    (key :: (getAllValues child ++ valuesOfChildren B))) := by
                refine List.Perm.append_left _ ?_
                have hx := hpm.append_right (valuesOfChildren B)
                simpa using hx
              exact hstep1.trans List.perm_middle

end TrieNode

namespace TrieNode

/-- Effect of deleting a present key from a well-formed subtree: the call
returns `true`, decrements `_items`, removes exactly that key, and collapses
a subtree holding only that key to `clearedNode`. -/
theorem deleteGo_mem : ∀ (gas : Nat) (key : Bytes) (i : Nat) (t : TrieNode),
    i + gas = key.length → WFNode (key.take i) t → key ∈ getAllValues t →
    ∃ t', deleteGo key gas t i = .ok (t', true) ∧ t'.items = t.items - 1 ∧
      ((getAllValues t).length = 1 → t' = clearedNode) ∧
      (2 ≤ (getAllValues t).length → WFNode (key.take i) t' ∧
        List.Perm (getAllValues t') ((getAllValues t).erase key)) := by
  intro gas
  induction gas with
  | zero =>
    intro key i t hgi hwf hkm
    exfalso
    obtain ⟨_, hpref, _, _⟩ := wf_basic t _ hwf
    have hlt := (hpref key hkm).2
    rw [List.length_take] at hlt
    omega
  | succ gas ih =>
    intro key i t hgi hwf hkm
    obtain ⟨hneT, hprefT, hitT, hndT⟩ := wf_basic t _ hwf
    have hik : i < key.length := by
      have hlt := (hprefT key hkm).2
      rw [List.length_take] at hlt
      omega
    have hpl : (key.take i).length = i := by rw [List.length_take]; omega
    have hstep : key.take i ++ [key.get ⟨i, hik⟩] = key.take (i + 1) :=
      (take_succ_eq hik).symm
    rcases t with ⟨hd, n, cs, k⟩
    rw [deleteGo_succ key gas _ i hik]
    match cs, hwf, hkm, hitT with
    | [], hwf, hkm, hitT =>
      obtain ⟨kb, hk, hTLp, hkblen, hkbtake, hn1, hhd⟩ := WFNode_leaf_elim hwf
      subst hk
      have hkey : key = kb := by
        rw [getAllValues_leaf] at hkm
        exact List.mem_singleton.mp hkm
      rw [if_pos (show (TrieNode.mk hd n [] (some kb)).isLeaf = true from rfl),
        if_pos (show (TrieNode.mk hd n [] (some kb)).keyv.getD [] = key from hkey.symm)]
      refine ⟨_, rfl, rfl, ?_, ?_⟩
      · intro _
        show TrieNode.mk (some (computeHash [] none)) (n - 1) [] none = clearedNode
        rw [hn1]
        rfl
      · intro hlen
        exfalso
        have h1 : (getAllValues (TrieNode.mk hd n [] (some kb))).length = 1 := rfl
        omega
    | q :: qs, hwf, hkm, hitT =>
      obtain ⟨hk, hsort, hhd, hn, h2TL, hch⟩ := WFNode_internal_elim (by simp) hwf
      subst hk
      have hleafF : (TrieNode.mk hd n (q :: qs) none).isLeaf = false := rfl
      rw [if_neg (fun hcon => by rw [hleafF] at hcon; exact Bool.noConfusion hcon)]
      rw [show (TrieNode.mk hd n (q :: qs) none).children = q :: qs from rfl,
        show (TrieNode.mk hd n (q :: qs) none).items = n from rfl,
        show (TrieNode.mk hd n (q :: qs) none).keyv = none from rfl]
      rw [getAllValues_internal] at hkm
      obtain ⟨_, _, hex, _, _⟩ := wfChildren_basic (key.take i) (q :: qs)
        (fun c' u' _ p' hw => wf_basic u' p' hw) hch hsort
      obtain ⟨c'', u'', hm'', hv'', ht''⟩ := hex key hkm
      have hcc : c'' = key.get ⟨i, hik⟩ := by
        have hky : key.take ((key.take i).length + 1) =
            key.take i ++ [key.get ⟨i, hik⟩] := by
          rw [hpl, take_succ_eq hik]
        have hpc := ht''.symm.trans hky
        have h2 := List.append_cancel_left hpc
        simpa using h2
      subst hcc
      have hlk : lookupChild (q :: qs) (key.get ⟨i, hik⟩) = some u'' :=
        lookupChild_of_mem (pairSorted_labels_nodup hsort) hm''
      rw [hlk]
      dsimp only
      obtain ⟨A, B, hAB, hcA⟩ := lookupChild_decomp hlk
      have hcB : key.get ⟨i, hik⟩ ∉ labels B := by
        have hnd := pairSorted_labels_nodup hsort
        rw [hAB, labels_append] at hnd
        have hnd2 := (List.nodup_append.mp hnd).2.1
        rw [show labels ((key.get ⟨i, hik⟩, u'') :: B) =
          key.get ⟨i, hik⟩ :: labels B from rfl] at hnd2
        exact (List.nodup_cons.mp hnd2).1
      have hwfu : WFNode (key.take (i + 1)) u'' := by
        rw [← hstep]
        exact (WFChildren_iff _ _).mp hch _ _ hm''
      obtain ⟨t'', heq'', hit'', hcl'', hwf''⟩ := ih key (i + 1) u'' (by omega) hwfu hv''
      rw [heq'']
      dsimp only
      have hsortA : pairSorted A := pairSorted_of_sublist
        (by rw [hAB]; exact List.sublist_append_left _ _) hsort
      have hsortB : pairSorted B := by
        refine pairSorted_of_sublist ?_ hsort
        rw [hAB]
        exact (List.sublist_cons_self _ _).trans (List.sublist_append_right _ _)
      have hchA : WFChildren (key.take i) A :=
        ((WFChildren_mid _ _ _ _ _).mp (by rw [← hAB]; exact hch)).1
      have hchB : WFChildren (key.take i) B :=
        ((WFChildren_mid _ _ _ _ _).mp (by rw [← hAB]; exact hch)).2.2
      have hknA : key ∉ valuesOfChildren A :=
        not_mem_values_of_child (key.take i) key i A hchA hsortA hpl hik rfl _ rfl
          (fun u hm => (hcA (List.mem_map.mpr ⟨(_, u), hm, rfl⟩)).elim)
      have hknB : key ∉ valuesOfChildren B :=
        not_mem_values_of_child (key.take i) key i B hchB hsortB hpl hik rfl _ rfl
          (fun u hm => (hcB (List.mem_map.mpr ⟨(_, u), hm, rfl⟩)).elim)
      obtain ⟨hneU, hprefU, hitU, hndU⟩ := wf_basic u'' _ hwfu
      have hsums : n = sumItems A + u''.items + sumItems B := by
        rw [hn, hAB, sumItems_mid]
      have hvals : getAllValues (TrieNode.mk hd n (q :: qs) none) =
          valuesOfChildren A ++ (getAllValues u'' ++ valuesOfChildren B) := by
        rw [getAllValues_internal, hAB, valuesOfChildren_mid]
      have hlenT : (getAllValues (TrieNode.mk hd n (q :: qs) none)).length =
          (valuesOfChildren A).length +
            ((getAllValues u'').length + (valuesOfChildren B).length) := by
        rw [hvals, List.length_append, List.length_append]
      have hitn : n = ((getAllValues (TrieNode.mk hd n (q :: qs) none)).length : Int) :=
        hitT
      have herase : (getAllValues (TrieNode.mk hd n (q :: qs) none)).erase key =
          valuesOfChildren A ++
            ((getAllValues u'').erase key ++ valuesOfChildren B) := by
        rw [hvals, List.erase_append_right _ hknA, List.erase_append_left _ hv'']
      have hLpos : 1 ≤ (getAllValues u'').length := List.length_pos.mpr hneU
      obtain ⟨_, _, _, _, hneVA⟩ := wfChildren_basic (key.take i) A
        (fun c' u' _ p' hw => wf_basic u' p' hw) hchA hsortA
      obtain ⟨_, _, _, _, hneVB⟩ := wfChildren_basic (key.take i) B
        (fun c' u' _ p' hw => wf_basic u' p' hw) hchB hsortB
      by_cases hL1 : (getAllValues u'').length = 1
      · -- the child held only the deleted key and collapses; it is erased
        have hvu : getAllValues u'' = [key] := by
          obtain ⟨a, ha⟩ := List.length_eq_one.mp hL1
          have hka : key = a := by
            rw [ha] at hv''
            exact List.mem_singleton.mp hv''
          rw [ha, hka]
        have hclr : t'' = clearedNode := hcl'' hL1
        subst hclr
        have hset : setChild (q :: qs) (key.get ⟨i, hik⟩) clearedNode =
            A ++ (key.get ⟨i, hik⟩, clearedNode) :: B := by
          rw [hAB]
          exact setChild_decomp A B _ u'' clearedNode hcA
        rw [hset, if_pos (show clearedNode.items = 0 from rfl),
          eraseChild_decomp A B _ clearedNode hcA]
        have hui1 : u''.items = 1 := by rw [hitU, hL1]; rfl
        by_cases hg : n - 1 = 1 ∧ (A ++ B).length = 1 ∧ TIMESTAMP_LENGTH ≤ i
        · rw [if_pos hg]
          obtain ⟨p2, hp2⟩ := List.length_eq_one.mp hg.2.1
          rcases p2 with ⟨c2, n2⟩
          have hwfn2 : WFNode (key.take i ++ [c2]) n2 := by
            have hchAB2 : WFChildren (key.take i) (A ++ B) :=
              (WFChildren_append _ _ _).mpr ⟨hchA, hchB⟩
            rw [hp2, WFChildren] at hchAB2
            exact hchAB2.1
          have hsum2 : sumItems (A ++ B) = n - 1 := by
            rw [sumItems_append]
            omega
          have hplc : (key.take i ++ [c2]).length = i + 1 := by
            rw [List.length_append, hpl]
            rfl
          rcases n2 with ⟨hd2, n2i, cs2i, k2⟩
          rcases cs2i with _ | ⟨q2, qs2⟩
          · obtain ⟨kb2, hk2, hTL2, hkb2len, hkb2take, hn2i, hhd2⟩ :=
              WFNode_leaf_elim hwfn2
            subst hk2
            rw [hplc] at hTL2 hkb2len hkb2take
            rw [hp2]
            refine ⟨TrieNode.mk (some (computeHash [] (some kb2))) (n - 1) []
              (some kb2), rfl, rfl, ?_, ?_⟩
            · intro h1
              exfalso
              omega
            · intro h2v
              obtain ⟨hkb2i, _⟩ := take_succ_decomp (show i < kb2.length by omega)
                hpl hkb2take
              constructor
              · rw [hg.1]
                refine WFNode_leaf_intro ?_ ?_ ?_
                · rw [hpl]; exact hg.2.2
                · rw [hpl]; omega
                · rw [hpl]; exact hkb2i
              · rw [getAllValues_leaf, herase, hvu, List.erase_cons_head,
                  List.nil_append]
                have hvv : valuesOfChildren A ++ valuesOfChildren B = [kb2] := by
                  rw [← valuesOfChildren_append, hp2]
                  rfl
                rw [hvv]
          · exfalso
            obtain ⟨_, _, _, hn2, h2TL2, _⟩ := WFNode_internal_elim (by simp) hwfn2
            have h2n2 : 2 ≤ n2i := by
              refine h2TL2 ?_
              rw [hplc]
              omega
            have hsum2' : sumItems (A ++ B) = n2i := by
              rw [hp2, sumItems_cons]
              show (TrieNode.mk hd2 n2i (q2 :: qs2) k2).items + sumItems [] = n2i
              show n2i + 0 = n2i
              omega
            omega
        · rw [if_neg hg]
          refine ⟨TrieNode.mk (some (computeHash (A ++ B) none)) (n - 1) (A ++ B)
            none, rfl, rfl, ?_, ?_⟩
          · intro h1
            have hvA0 : (valuesOfChildren A).length = 0 := by omega
            have hvB0 : (valuesOfChildren B).length = 0 := by omega
            have hA0 : A = [] := by
              by_contra hA
              exact (hneVA hA) (List.length_eq_zero.mp hvA0)
            have hB0 : B = [] := by
              by_contra hB
              exact (hneVB hB) (List.length_eq_zero.mp hvB0)
            subst hA0
            subst hB0
            have hn1' : n = 1 := by omega
            show TrieNode.mk (some (computeHash ([] ++ []) none)) (n - 1) ([] ++ [])
              none = clearedNode
            rw [hn1']
            rfl
          · intro h2v
            have hABne : A ++ B ≠ [] := by
              intro hAB0
              rw [List.append_eq_nil] at hAB0
              obtain ⟨hA0, hB0⟩ := hAB0
              subst hA0
              subst hB0
              have hva : (valuesOfChildren ([] : List (Nat × TrieNode))).length = 0 :=
                rfl
              omega
            have hchAB2 : WFChildren (key.take i) (A ++ B) :=
              (WFChildren_append _ _ _).mpr ⟨hchA, hchB⟩
            have hsum2 : sumItems (A ++ B) = n - 1 := by
              rw [sumItems_append]
              omega
            have hge := sumItems_ge_length (key.take i) (A ++ B) hchAB2
            constructor
            · refine WFNode_internal_intro hABne ?_ ?_ ?_ ?_
              · exact pairSorted_mid_drop A B _ (by rw [← hAB]; exact hsort)
              · exact hchAB2
              · omega
              · intro hTLp
                rw [hpl] at hTLp
                by_contra hlt
                push_neg at hlt
                have h1len : 1 ≤ (A ++ B).length := List.length_pos.mpr hABne
                have hlen1 : (A ++ B).length = 1 := by omega
                exact hg ⟨by omega, hlen1, hTLp⟩
            · rw [getAllValues_of_ne_nil _ _ _ _ hABne, valuesOfChildren_append,
                herase, hvu, List.erase_cons_head, List.nil_append]
      · have hL2 : 2 ≤ (getAllValues u'').length := by omega
        obtain ⟨hwfT, hpermT⟩ := hwf'' hL2
        have hne0 : ¬ t''.items = 0 := by
          rw [hit'', hitU]
          omega
        have hset : setChild (q :: qs) (key.get ⟨i, hik⟩) t'' =
            A ++ (key.get ⟨i, hik⟩, t'') :: B := by
          rw [hAB]
          exact setChild_decomp A B _ u'' t'' hcA
        rw [hset, if_neg hne0]
        have hsum2 : sumItems (A ++ (key.get ⟨i, hik⟩, t'') :: B) = n - 1 := by
          rw [sumItems_mid]
          omega
        have hwfT' : WFNode (key.take i ++ [key.get ⟨i, hik⟩]) t'' := by
          rw [hstep]
          exact hwfT
        by_cases hg : n - 1 = 1 ∧ (A ++ (key.get ⟨i, hik⟩, t'') :: B).length = 1 ∧
            TIMESTAMP_LENGTH ≤ i
        · rw [if_pos hg]
          have hA0B0 : A = [] ∧ B = [] := by
            have hlen := hg.2.1
            rw [List.length_append, List.length_cons] at hlen
            exact ⟨List.length_eq_zero.mp (by omega), List.length_eq_zero.mp (by omega)⟩
          obtain ⟨hA0, hB0⟩ := hA0B0
          subst hA0
          subst hB0
          rcases t'' with ⟨hd2, n2i, cs2i, k2⟩
          rcases cs2i with _ | ⟨q2, qs2⟩
          · obtain ⟨kb2, hk2, hTL2, hkb2len, hkb2take, hn2i, hhd2⟩ :=
              WFNode_leaf_elim hwfT'
            subst hk2
            have hplc : (key.take i ++ [key.get ⟨i, hik⟩]).length = i + 1 := by
              rw [List.length_append, hpl]
              rfl
            rw [hplc] at hTL2 hkb2len hkb2take
            refine ⟨TrieNode.mk (some (computeHash [] (some kb2))) (n - 1) []
              (some kb2), rfl, rfl, ?_, ?_⟩
            · intro h1
              exfalso
              omega
            · intro h2v
              obtain ⟨hkb2i, _⟩ := take_succ_decomp (show i < kb2.length by omega)
                hpl hkb2take
              constructor
              · rw [hg.1]
                refine WFNode_leaf_intro ?_ ?_ ?_
                · rw [hpl]; exact hg.2.2
                · rw [hpl]; omega
                · rw [hpl]; exact hkb2i
              · rw [herase,
                  show valuesOfChildren ([] : List (Nat × TrieNode)) = [] from rfl,
                  List.nil_append, List.append_nil]
                exact hpermT
          · exfalso
            obtain ⟨_, _, _, hn2, h2TL2, _⟩ := WFNode_internal_elim (by simp) hwfT'
            have hplc : (key.take i ++ [key.get ⟨i, hik⟩]).length = i + 1 := by
              rw [List.length_append, hpl]
              rfl
            have h2n2 : 2 ≤ n2i := by
              refine h2TL2 ?_
              rw [hplc]
              omega
            have hii : (TrieNode.mk hd2 n2i (q2 :: qs2) k2).items = n2i := rfl
            have hs0 : sumItems ([] : List (Nat × TrieNode)) = 0 := rfl
            omega
        · rw [if_neg hg]
          refine ⟨TrieNode.mk
            (some (computeHash (A ++ (key.get ⟨i, hik⟩, t'') :: B) none)) (n - 1)
            (A ++ (key.get ⟨i, hik⟩, t'') :: B) none, rfl, rfl, ?_, ?_⟩
          · intro h1
            exfalso
            omega
          · intro h2v
            have hchAB2 : WFChildren (key.take i)
                (A ++ (key.get ⟨i, hik⟩, t'') :: B) := by
              rw [WFChildren_mid]
              exact ⟨hchA, hwfT', hchB⟩
            have hge := sumItems_ge_length (key.take i) _ hchAB2
            constructor
            · refine WFNode_internal_intro (by simp) ?_ ?_ ?_ ?_
              · exact pairSorted_set_mid A B _ u'' t'' (by rw [← hAB]; exact hsort)
              · exact hchAB2
              · omega
              · intro hTLp
                rw [hpl] at hTLp
                by_contra hlt
                push_neg at hlt
                have h1len : 1 ≤ (A ++ (key.get ⟨i, hik⟩, t'') :: B).length := by
                  rw [List.length_append, List.length_cons]
                  omega
                have hlen1 : (A ++ (key.get ⟨i, hik⟩, t'') :: B).length = 1 := by
                  omega
                exact hg ⟨by omega, hlen1, hTLp⟩
            · rw [getAllValues_of_ne_nil _ _ _ _ (by simp), valuesOfChildren_mid,
                herase]
              exact List.Perm.append_left _ (hpermT.append_right _)

end TrieNode

namespace TrieNode

theorem deleteGo_zero (key : Bytes) (t : TrieNode) (i : Nat) :
    deleteGo key 0 t i =
      (if t.isLeaf then
        (if t.keyv.getD [] = key then
          .ok (.mk (some (computeHash [] none)) (t.items - 1) [] none, true)
        else .ok (t, false))
      else .error (.str "Key length exceeded2")) := rfl

/-- Deleting a key that is not in a well-formed subtree is a no-op that
returns `false`. -/
theorem deleteGo_notmem : ∀ (gas : Nat) (key : Bytes) (i : Nat) (t t' : TrieNode)
    (b : Bool), i + gas = key.length → WFNode (key.take i) t →
    key ∉ getAllValues t → deleteGo key gas t i = .ok (t', b) →
    t' = t ∧ b = false := by
  intro gas
  induction gas with
  | zero =>
    intro key i t t' b hgi hwf hnm hins
    rw [deleteGo_zero] at hins
    rcases t with ⟨hd, n, cs, k⟩
    match cs, hwf, hnm, hins with
    | [], hwf, hnm, hins =>
      obtain ⟨kb, hk, _, _, _, _, _⟩ := WFNode_leaf_elim hwf
      subst hk
      have hkb : ¬ (TrieNode.mk hd n [] (some kb)).keyv.getD [] = key := by
        intro hcon
        refine hnm ?_
        rw [getAllValues_leaf]
        show key ∈ [kb]
        rw [show kb = key from hcon]
        exact List.mem_singleton.mpr rfl
      rw [if_pos (show (TrieNode.mk hd n [] (some kb)).isLeaf = true from rfl),
        if_neg hkb] at hins
      simp only [Except.ok.injEq, Prod.mk.injEq] at hins
      exact ⟨hins.1.symm, hins.2.symm⟩
    | q :: qs, hwf, hnm, hins =>
      rw [if_neg (show ¬ (TrieNode.mk hd n (q :: qs) k).isLeaf = true from
        fun hcon => by
          rw [show (TrieNode.mk hd n (q :: qs) k).isLeaf = false from rfl] at hcon
          exact Bool.noConfusion hcon)] at hins
      exact absurd hins (by simp)
  | succ gas ih =>
    intro key i t t' b hgi hwf hnm hins
    have hik : i < key.length := by omega
    rw [deleteGo_succ key gas t i hik] at hins
    rcases t with ⟨hd, n, cs, k⟩
    match cs, hwf, hnm, hins with
    | [], hwf, hnm, hins =>
      obtain ⟨kb, hk, _, _, _, _, _⟩ := WFNode_leaf_elim hwf
      subst hk
      have hkb : ¬ (TrieNode.mk hd n [] (some kb)).keyv.getD [] = key := by
        intro hcon
        refine hnm ?_
        rw [getAllValues_leaf]
        show key ∈ [kb]
        rw [show kb = key from hcon]
        exact List.mem_singleton.mpr rfl
      rw [if_pos (show (TrieNode.mk hd n [] (some kb)).isLeaf = true from rfl),
        if_neg hkb] at hins
      simp only [Except.ok.injEq, Prod.mk.injEq] at hins
      exact ⟨hins.1.symm, hins.2.symm⟩
    | q :: qs, hwf, hnm, hins =>
      obtain ⟨hk, hsort, hhd, hn, h2TL, hch⟩ := WFNode_internal_elim (by simp) hwf
      subst hk
      rw [if_neg (show ¬ (TrieNode.mk hd n (q :: qs) none).isLeaf = true from
        fun hcon => by
          rw [show (TrieNode.mk hd n (q :: qs) none).isLeaf = false from rfl] at hcon
          exact Bool.noConfusion hcon),
        show (TrieNode.mk hd n (q :: qs) none).children = q :: qs from rfl] at hins
      rcases hlk : lookupChild (q :: qs) (key.get ⟨i, hik⟩) with _ | child
      · rw [hlk] at hins
        dsimp only at hins
        simp only [Except.ok.injEq, Prod.mk.injEq] at hins
        exact ⟨hins.1.symm, hins.2.symm⟩
      · rw [hlk] at hins
        dsimp only at hins
        have hnmc : key ∉ getAllValues child := by
          intro hmm
          refine hnm ?_
          rw [getAllValues_internal]
          exact (mem_valuesOfChildren _ _).mpr ⟨_, child, lookupChild_some_mem hlk, hmm⟩
        have hwfc : WFNode (key.take (i + 1)) child := by
          rw [take_succ_eq hik]
          exact (WFChildren_iff _ _).mp hch _ _ (lookupChild_some_mem hlk)
        rcases hrec : deleteGo key gas child (i + 1) with e | ⟨c', b'⟩
        · rw [hrec] at hins
          simp at hins
        · rw [hrec] at hins
          obtain ⟨hc', hb'⟩ := ih key (i + 1) child c' b' (by omega) hwfc hnmc hrec
          subst hc'
          subst hb'
          dsimp only at hins
          rw [setChild_self _ _ _ hlk] at hins
          simp only [Except.ok.injEq, Prod.mk.injEq] at hins
          exact ⟨hins.1.symm, hins.2.symm⟩

end TrieNode

namespace TrieNode

/-- Trie states reachable through the mutation API from a fresh root:
`new MerkleTrie()` followed by any sequence of successful `insert` and
`delete` calls on SyncId keys (every SyncId is longer than the 10-byte
timestamp prefix). -/
inductive Reachable : TrieNode → Prop where
  | new : Reachable newNode
  | ins (t t' : TrieNode) (key : Bytes) (b : Bool)
      (hTL : TIMESTAMP_LENGTH < key.length) (h : Reachable t)
      (hi : insert key t 0 = .ok (t', b)) : Reachable t'
  | del (t t' : TrieNode) (key : Bytes) (b : Bool)
      (hTL : TIMESTAMP_LENGTH < key.length) (h : Reachable t)
      (hdel : delete key t 0 = .ok (t', b)) : Reachable t'

/-- Every reachable root is the fresh node, the cleared node, or a
well-formed nonempty trie. -/
theorem reachable_inv (t : TrieNode) (h : Reachable t) :
    t = newNode ∨ t = clearedNode ∨ WFNode [] t := by
  induction h with
  | new => exact Or.inl rfl
  | ins t t' key b hTL hr hi ihr =>
    rw [insert] at hi
    rcases ihr with h0 | h0 | h0
    · subst h0
      obtain ⟨u, heq, hwfu, _, _⟩ := insertGo_empty (key.length - 0) key 0 none
        (by omega) (by omega) hTL
      have heq' : insertGo key (key.length - 0) newNode 0 = .ok (u, true) := heq
      rw [heq'] at hi
      simp only [Except.ok.injEq, Prod.mk.injEq] at hi
      obtain ⟨hu, _⟩ := hi
      subst hu
      exact Or.inr (Or.inr hwfu)
    · subst h0
      obtain ⟨u, heq, hwfu, _, _⟩ := insertGo_empty (key.length - 0) key 0
        (some emptyHashDigest) (by omega) (by omega) hTL
      have heq' : insertGo key (key.length - 0) clearedNode 0 = .ok (u, true) := heq
      rw [heq'] at hi
      simp only [Except.ok.injEq, Prod.mk.injEq] at hi
      obtain ⟨hu, _⟩ := hi
      subst hu
      exact Or.inr (Or.inr hwfu)
    · obtain ⟨hF, hT⟩ := insertGo_wf (key.length - 0) key 0 t t' b (by omega) hTL h0 hi
      cases b with
      | false =>
        rw [(hF rfl).1]
        exact Or.inr (Or.inr h0)
      | true => exact Or.inr (Or.inr (hT rfl).1)
  | del t t' key b hTL hr hdel ihr =>
    rw [delete] at hdel
    rcases ihr with h0 | h0 | h0
    · subst h0
      rcases hg : key.length - 0 with _ | gas
      · exfalso
        omega
      · rw [hg, deleteGo_succ key gas _ 0 (by omega)] at hdel
        rw [if_pos (show newNode.isLeaf = true from rfl),
          if_neg (show ¬ newNode.keyv.getD [] = key from fun hcon => by
            have hk0 : key.length = 0 := by rw [← hcon]; rfl
            omega)] at hdel
        simp only [Except.ok.injEq, Prod.mk.injEq] at hdel
        rw [← hdel.1]
        exact Or.inl rfl
    · subst h0
      rcases hg : key.length - 0 with _ | gas
      · exfalso
        omega
      · rw [hg, deleteGo_succ key gas _ 0 (by omega)] at hdel
        rw [if_pos (show clearedNode.isLeaf = true from rfl),
          if_neg (show ¬ clearedNode.keyv.getD [] = key from fun hcon => by
            have hk0 : key.length = 0 := by rw [← hcon]; rfl
            omega)] at hdel
        simp only [Except.ok.injEq, Prod.mk.injEq] at hdel
        rw [← hdel.1]
        exact Or.inr (Or.inl rfl)
    · by_cases hkm : key ∈ getAllValues t
      · obtain ⟨t'', heq, hit, hcl, hwf2⟩ := deleteGo_mem (key.length - 0) key 0 t
          (by omega) h0 hkm
        rw [heq] at hdel
        simp only [Except.ok.injEq, Prod.mk.injEq] at hdel
        rw [← hdel.1]
        obtain ⟨hne, _, _, _⟩ := wf_basic t [] h0
        have hpos : 1 ≤ (getAllValues t).length := List.length_pos.mpr hne
        by_cases hone : (getAllValues t).length = 1
        · rw [hcl hone]
          exact Or.inr (Or.inl rfl)
        · exact Or.inr (Or.inr (hwf2 (by omega)).1)
      · obtain ⟨ht', _⟩ := deleteGo_notmem (key.length - 0) key 0 t t' b (by omega)
          h0 hkm hdel
        rw [ht']
        exact Or.inr (Or.inr h0)

/-- Every node reachable by `getNode` from a well-formed node is itself
well-formed at some path. -/
theorem getNode_wf : ∀ (pfx : Bytes) (p : Bytes) (t : TrieNode), WFNode p t →
    ∀ u, getNode t pfx = some u → ∃ p2, WFNode p2 u := by
  intro pfx
  induction pfx with
  | nil =>
    intro p t hwf u hg
    rw [getNode] at hg
    cases hg
    exact ⟨p, hwf⟩
  | cons c rest ih =>
    intro p t hwf u hg
    rcases t with ⟨hd, n, cs, k⟩
    rw [getNode] at hg
    match cs, hwf, hg with
    | [], hwf, hg =>
      rw [show (TrieNode.mk hd n [] k).children = [] from rfl, lookupChild] at hg
      exact absurd hg (by simp)
    | q :: qs, hwf, hg =>
      obtain ⟨hk, hsort, hhd, hn, h2TL, hch⟩ := WFNode_internal_elim (by simp) hwf
      rw [show (TrieNode.mk hd n (q :: qs) k).children = q :: qs from rfl] at hg
      rcases hlk : lookupChild (q :: qs) c with _ | child
      · rw [hlk] at hg
        exact absurd hg (by simp)
      · rw [hlk] at hg
        exact ih (p ++ [c]) child
          ((WFChildren_iff _ _).mp hch _ _ (lookupChild_some_mem hlk)) u hg

end TrieNode

/-- C1 (amended): in every API-reachable trie, every node reachable by
`getNode` keeps its children sorted by the JS default `Array.sort()` order —
`jsLt`, comparison of the decimal string renderings of the bytes — and a node
with children stores as its hash the digest of the concatenation of its
children's digests in that stored order (not ascending numeric byte order:
see the counterexample, where the stored order is `[100, 9]`). -/
theorem childOrder_hash_invariant (t : TrieNode) (h : TrieNode.Reachable t)
    (pfx : Bytes) (u : TrieNode) (hget : TrieNode.getNode t pfx = some u) :
    List.Pairwise (fun a b => jsLt a b = true) (TrieNode.labels u.children) ∧
    (u.children ≠ [] →
      u.hashD = some (catHash (u.children.filterMap fun q => q.2.hashD))) := by
  have hwfu : u = TrieNode.newNode ∨ u = TrieNode.clearedNode ∨
      ∃ p2, TrieNode.WFNode p2 u := by
    rcases TrieNode.reachable_inv t h with h0 | h0 | h0
    · subst h0
      rcases pfx with _ | ⟨c, rest⟩
      · rw [TrieNode.getNode] at hget
        cases hget
        exact Or.inl rfl
      · rw [TrieNode.getNode] at hget
        rw [show TrieNode.newNode.children = [] from rfl, TrieNode.lookupChild] at hget
        exact absurd hget (by simp)
    · subst h0
      rcases pfx with _ | ⟨c, rest⟩
      · rw [TrieNode.getNode] at hget
        cases hget
        exact Or.inr (Or.inl rfl)
      · rw [TrieNode.getNode] at hget
        rw [show TrieNode.clearedNode.children = [] from rfl,
          TrieNode.lookupChild] at hget
        exact absurd hget (by simp)
    · exact Or.inr (Or.inr (TrieNode.getNode_wf pfx [] t h0 u hget))
  rcases hwfu with h0 | h0 | ⟨p2, h0⟩
  · subst h0
    exact ⟨List.Pairwise.nil, fun hcon => absurd rfl hcon⟩
  · subst h0
    exact ⟨List.Pairwise.nil, fun hcon => absurd rfl hcon⟩
  · rcases u with ⟨hd, n, cs, k⟩
    match cs, h0 with
    | [], h0 => exact ⟨List.Pairwise.nil, fun hcon => absurd rfl hcon⟩
    | q :: qs, h0 =>
      obtain ⟨hk, hsort, hhd, hn, h2TL, hch⟩ := TrieNode.WFNode_internal_elim
        (by simp) h0
      constructor
      · exact (TrieNode.pairSorted_iff_labels _).mp hsort
      · intro _
        rw [show (TrieNode.mk hd n (q :: qs) k).hashD = hd from rfl, hhd]
        rfl

/-- C2 (amended): on a nonempty well-formed trie, a successful fresh insert
is inverted bit-for-bit by deleting the same SyncId; only the empty trie
violates the original claim (its restored root carries EMPTY_HASH instead of
the fresh sentinel `''`, see the counterexample). -/
theorem deleteInsert_inverts (T : MerkleTrie) (s : Bytes)
    (hwf : TrieNode.WFNode [] T.root) (hTL : TIMESTAMP_LENGTH < s.length)
    (hnotin : s ∉ TrieNode.getAllValues T.root) (T1 : MerkleTrie) (b1 : Bool)
    (hins : MerkleTrie.insert T s = .ok (T1, b1)) :
    MerkleTrie.delete T1 s = .ok (T, true) := by
  rw [MerkleTrie.insert] at hins
  rcases hr : TrieNode.insert s T.root 0 with e | ⟨rt, rb⟩
  · rw [hr] at hins
    simp [Except.map] at hins
  · rw [hr] at hins
    simp only [Except.map, Except.ok.injEq, Prod.mk.injEq] at hins
    obtain ⟨hT1, hb⟩ := hins
    rw [TrieNode.insert] at hr
    obtain ⟨hF, hT⟩ := TrieNode.insertGo_wf (s.length - 0) s 0 T.root rt rb
      (by omega) hTL hwf hr
    cases rb with
    | false =>
      exfalso
      exact hnotin (hF rfl).2
    | true =>
      obtain ⟨hwf1, hnm, hperm⟩ := hT rfl
      have hsm : s ∈ TrieNode.getAllValues rt :=
        hperm.mem_iff.mpr (List.mem_cons_self _ _)
      obtain ⟨t2, heq2, hit2, hcl2, hwf2⟩ := TrieNode.deleteGo_mem (s.length - 0)
        s 0 rt (by omega) hwf1 hsm
      have hlen2 : 2 ≤ (TrieNode.getAllValues rt).length := by
        have hle := hperm.length_eq
        rw [List.length_cons] at hle
        obtain ⟨hne, _, _, _⟩ := TrieNode.wf_basic T.root [] hwf
        have hpos : 1 ≤ (TrieNode.getAllValues T.root).length := List.length_pos.mpr hne
        omega
      obtain ⟨hwft2, hperm2⟩ := hwf2 hlen2
      have hpe : List.Perm (TrieNode.getAllValues t2) (TrieNode.getAllValues T.root) := by
        refine hperm2.trans ?_
        have hnd1 : (TrieNode.getAllValues rt).Nodup :=
          (TrieNode.wf_basic rt _ hwf1).2.2.2
        obtain ⟨S, Tt, hST⟩ := List.append_of_mem hsm
        have haS : s ∉ S := by
          intro hin
          rw [hST] at hnd1
          obtain ⟨_, _, hdisj⟩ := List.nodup_append.mp hnd1
          exact hdisj hin (List.mem_cons_self _ _)
        have her : (TrieNode.getAllValues rt).erase s = S ++ Tt := by
          rw [hST, List.erase_append_right _ haS, List.erase_cons_head]
        rw [her]
        have h5 : List.Perm (s :: (S ++ Tt)) (s :: TrieNode.getAllValues T.root) := by
          refine List.perm_middle.symm.trans ?_
          rw [← hST]
          exact hperm
        exact h5.cons_inv
      have ht2 : t2 = T.root := TrieNode.canon t2 T.root [] hwft2 hwf hpe
      subst hT1
      rw [MerkleTrie.delete]
      rw [show (MerkleTrie.mk rt).root = rt from rfl, TrieNode.delete, heq2, ht2]
      rfl

/-- Characterization of `buildTrie` runs: starting from a fresh-or-well-formed
root, a successful fold of inserts keeps the root fresh-or-well-formed and the
value set becomes the union of the inserted ids and the initial values. -/
theorem buildGo_charac : ∀ (ids : List Bytes) (T0 T : MerkleTrie),
    (∀ s ∈ ids, TIMESTAMP_LENGTH < s.length) →
    (T0.root = TrieNode.newNode ∨ TrieNode.WFNode [] T0.root) →
    ids.foldlM (fun T s => (MerkleTrie.insert T s).map Prod.fst) T0 = .ok T →
    (T.root = TrieNode.newNode ∨ TrieNode.WFNode [] T.root) ∧
    (∀ kk, kk ∈ TrieNode.getAllValues T.root ↔
      kk ∈ ids ∨ kk ∈ TrieNode.getAllValues T0.root) := by
  intro ids
  induction ids with
  | nil =>
    intro T0 T hlen h0 hfold
    rw [List.foldlM_nil] at hfold
    have hT0 : T0 = T := by
      have hx : (pure T0 : Except ThrowVal MerkleTrie) = .ok T0 := rfl
      rw [hx] at hfold
      injection hfold
    subst hT0
    exact ⟨h0, fun kk => by simp⟩
  | cons s rest ih =>
    intro T0 T hlen h0 hfold
    rw [List.foldlM_cons] at hfold
    rcases hins : MerkleTrie.insert T0 s with e | r1
    · rw [hins] at hfold
      simp [Except.map, Bind.bind, Except.bind] at hfold
    · rcases r1 with ⟨T1, b1⟩
      rw [hins] at hfold
      have hfold2 : rest.foldlM (fun T s => (MerkleTrie.insert T s).map Prod.fst) T1 =
          .ok T := by
        simpa [Except.map, Bind.bind, Except.bind] using hfold
      rw [MerkleTrie.insert] at hins
      rcases hr : TrieNode.insert s T0.root 0 with e | ⟨rt, rb⟩
      · rw [hr] at hins
        simp [Except.map] at hins
      · rw [hr] at hins
        simp only [Except.map, Except.ok.injEq, Prod.mk.injEq] at hins
        obtain ⟨hT1, hb⟩ := hins
        rw [TrieNode.insert] at hr
        have hTLs : TIMESTAMP_LENGTH < s.length := hlen s (by simp)
        have hlenR : ∀ s2 ∈ rest, TIMESTAMP_LENGTH < s2.length :=
          fun s2 hs2 => hlen s2 (by simp [hs2])
        rcases h0 with h0 | h0
        · obtain ⟨u, heq, hwfu, hvalu, _⟩ := TrieNode.insertGo_empty (s.length - 0)
            s 0 none (by omega) (by omega) hTLs
          have heq2 : TrieNode.insertGo s (s.length - 0) T0.root 0 = .ok (u, true) := by
            rw [h0]
            exact heq
          rw [heq2] at hr
          simp only [Except.ok.injEq, Prod.mk.injEq] at hr
          obtain ⟨hru, hrb⟩ := hr
          have hwfT1 : TrieNode.WFNode [] T1.root := by
            rw [← hT1, show (MerkleTrie.mk rt).root = rt from rfl, ← hru]
            exact hwfu
          obtain ⟨hA, hB⟩ := ih T1 T hlenR (Or.inr hwfT1) hfold2
          refine ⟨hA, ?_⟩
          intro kk
          rw [hB kk]
          have hv1 : TrieNode.getAllValues T1.root = [s] := by
            rw [← hT1, show (MerkleTrie.mk rt).root = rt from rfl, ← hru]
            exact hvalu
          rw [hv1, h0, show TrieNode.getAllValues TrieNode.newNode = [] from rfl]
          simp only [List.mem_cons, List.mem_singleton, List.not_mem_nil, or_false]
          exact or_comm
        · obtain ⟨hF, hT2⟩ := TrieNode.insertGo_wf (s.length - 0) s 0 T0.root rt rb
            (by omega) hTLs h0 hr
          cases rb with
          | false =>
            obtain ⟨hrt, hsm⟩ := hF rfl
            have hwfT1 : TrieNode.WFNode [] T1.root := by
              rw [← hT1, show (MerkleTrie.mk rt).root = rt from rfl, hrt]
              exact h0
            obtain ⟨hA, hB⟩ := ih T1 T hlenR (Or.inr hwfT1) hfold2
            refine ⟨hA, ?_⟩
            intro kk
            rw [hB kk]
            have hv1 : TrieNode.getAllValues T1.root =
                TrieNode.getAllValues T0.root := by
              rw [← hT1, show (MerkleTrie.mk rt).root = rt from rfl, hrt]
            rw [hv1]
            constructor
            · rintro (h | h)
              · exact Or.inl (List.mem_cons_of_mem _ h)
              · exact Or.inr h
            · rintro (h | h)
              · rcases List.mem_cons.mp h with he | hm
                · subst he
                  exact Or.inr hsm
                · exact Or.inl hm
              · exact Or.inr h
          | true =>
            obtain ⟨hwf1, hnm, hperm⟩ := hT2 rfl
            have hwfT1 : TrieNode.WFNode [] T1.root := by
              rw [← hT1, show (MerkleTrie.mk rt).root = rt from rfl]
              exact hwf1
            obtain ⟨hA, hB⟩ := ih T1 T hlenR (Or.inr hwfT1) hfold2
            refine ⟨hA, ?_⟩
            intro kk
            rw [hB kk]
            have hv1 : kk ∈ TrieNode.getAllValues T1.root ↔
                kk = s ∨ kk ∈ TrieNode.getAllValues T0.root := by
              rw [← hT1, show (MerkleTrie.mk rt).root = rt from rfl, hperm.mem_iff]
              exact List.mem_cons
            rw [hv1]
            constructor
            · rintro (h | h | h)
              · exact Or.inl (List.mem_cons_of_mem _ h)
              · exact Or.inl (by rw [h]; exact List.mem_cons_self _ _)
              · exact Or.inr h
            · rintro (h | h)
              · rcases List.mem_cons.mp h with he | hm
                · subst he
                  exact Or.inr (Or.inl rfl)
                · exact Or.inl hm
              · exact Or.inr (Or.inr h)

/-- C4: building a trie by inserting a list of SyncIds is order-independent:
any permutation that builds successfully yields the identical trie — the same
root node, hence the same `rootHash` and the same `items`. -/
theorem buildTrie_perm (ids1 ids2 : List Bytes) (hperm : List.Perm ids1 ids2)
    (hlen : ∀ s ∈ ids1, TIMESTAMP_LENGTH < s.length)
    (T1 T2 : MerkleTrie) (h1 : buildTrie ids1 = .ok T1)
    (h2 : buildTrie ids2 = .ok T2) :
    T1 = T2 ∧ MerkleTrie.rootHashD T1 = MerkleTrie.rootHashD T2 ∧
      MerkleTrie.items T1 = MerkleTrie.items T2 := by
  have hlen2 : ∀ s ∈ ids2, TIMESTAMP_LENGTH < s.length :=
    fun s hs => hlen s (hperm.mem_iff.mpr hs)
  obtain ⟨hA1, hB1⟩ := buildGo_charac ids1 MerkleTrie.new T1 hlen (Or.inl rfl) h1
  obtain ⟨hA2, hB2⟩ := buildGo_charac ids2 MerkleTrie.new T2 hlen2 (Or.inl rfl) h2
  have hmem : ∀ kk, kk ∈ TrieNode.getAllValues T1.root ↔
      kk ∈ TrieNode.getAllValues T2.root := by
    intro kk
    rw [hB1 kk, hB2 kk]
    constructor
    · rintro (h | h)
      · exact Or.inl (hperm.mem_iff.mp h)
      · exact Or.inr h
    · rintro (h | h)
      · exact Or.inl (hperm.mem_iff.mpr h)
      · exact Or.inr h
  have hroots : T1.root = T2.root := by
    rcases hA1 with h01 | h01
    · rcases hA2 with h02 | h02
      · rw [h01, h02]
      · exfalso
        obtain ⟨hne2, _, _, _⟩ := TrieNode.wf_basic T2.root [] h02
        rcases hne2v : TrieNode.getAllValues T2.root with _ | ⟨kk, r2⟩
        · exact hne2 hne2v
        · have hkk : kk ∈ TrieNode.getAllValues T2.root := by
            rw [hne2v]
            exact List.mem_cons_self _ _
          have hkk1 := (hmem kk).mpr hkk
          rw [h01] at hkk1
          rw [show TrieNode.getAllValues TrieNode.newNode = [] from rfl] at hkk1
          exact absurd hkk1 (by simp)
    · rcases hA2 with h02 | h02
      · exfalso
        obtain ⟨hne1, _, _, _⟩ := TrieNode.wf_basic T1.root [] h01
        rcases hne1v : TrieNode.getAllValues T1.root with _ | ⟨kk, r1⟩
        · exact hne1 hne1v
        · have hkk : kk ∈ TrieNode.getAllValues T1.root := by
            rw [hne1v]
            exact List.mem_cons_self _ _
          have hkk1 := (hmem kk).mp hkk
          rw [h02] at hkk1
          rw [show TrieNode.getAllValues TrieNode.newNode = [] from rfl] at hkk1
          exact absurd hkk1 (by simp)
      · refine TrieNode.canon T1.root T2.root [] h01 h02 ?_
        refine (List.perm_ext_iff_of_nodup ?_ ?_).mpr hmem
        · exact (TrieNode.wf_basic T1.root [] h01).2.2.2
        · exact (TrieNode.wf_basic T2.root [] h02).2.2.2
  have hT : T1 = T2 := by
    rcases T1 with ⟨r1⟩
    rcases T2 with ⟨r2⟩
    cases hroots
    rfl
  exact ⟨hT, by rw [hT], by rw [hT]⟩

set_option maxHeartbeats 4000000 in
/-- C1 amended witness: the invariant instantiated at the concrete two-key
trie whose stored child order is `[100, 9]`. -/
theorem childOrder_hash_invariant_witness :
    TrieNode.Reachable sampleTrie12.root ∧
    TrieNode.getNode sampleTrie12.root (tsDigits ++ [1]) = some sampleNode12 ∧
    (List.Pairwise (fun a b => jsLt a b = true)
        (TrieNode.labels sampleNode12.children) ∧
      (sampleNode12.children ≠ [] → sampleNode12.hashD =
        some (catHash (sampleNode12.children.filterMap fun q => q.2.hashD)))) := by
  have h1 : TrieNode.insert sampleId1 TrieNode.newNode 0 =
      .ok (sampleTrie1.root, true) := by rfl
  have h2 : TrieNode.insert sampleId2 sampleTrie1.root 0 =
      .ok (sampleTrie12.root, true) := by rfl
  have hreach : TrieNode.Reachable sampleTrie12.root :=
    .ins _ _ sampleId2 true (by decide)
      (.ins _ _ sampleId1 true (by decide) .new h1) h2
  have hget : TrieNode.getNode sampleTrie12.root (tsDigits ++ [1]) =
      some sampleNode12 := by rfl
  exact ⟨hreach, hget,
    childOrder_hash_invariant sampleTrie12.root hreach (tsDigits ++ [1])
      sampleNode12 hget⟩

set_option maxHeartbeats 4000000 in
/-- C2 amended witness: deleting `sampleId2` right after inserting it into
the one-key trie restores that trie bit-for-bit. -/
theorem deleteInsert_inverts_witness :
    TrieNode.WFNode [] sampleTrie1.root ∧
    TIMESTAMP_LENGTH < sampleId2.length ∧
    sampleId2 ∉ TrieNode.getAllValues sampleTrie1.root ∧
    MerkleTrie.insert sampleTrie1 sampleId2 = .ok (sampleTrie12, true) ∧
    MerkleTrie.delete sampleTrie12 sampleId2 = .ok (sampleTrie1, true) := by
  have heq2 : TrieNode.insertGo sampleId1 36 TrieNode.newNode 0 =
      .ok (sampleTrie1.root, true) := by rfl
  have hwf : TrieNode.WFNode [] sampleTrie1.root := by
    obtain ⟨u, heq, hwf1, _, _⟩ := TrieNode.insertGo_empty 36 sampleId1 0 none
      (by decide) (by decide) (by decide)
    have hcomb := heq.symm.trans heq2
    simp only [Except.ok.injEq, Prod.mk.injEq] at hcomb
    rw [hcomb.1] at hwf1
    exact hwf1
  have hins : MerkleTrie.insert sampleTrie1 sampleId2 = .ok (sampleTrie12, true) := by
    rfl
  refine ⟨hwf, by decide, by decide, hins,
    deleteInsert_inverts sampleTrie1 sampleId2 hwf (by decide) (by decide)
      sampleTrie12 true hins⟩

set_option maxHeartbeats 4000000 in
/-- C4 witness: the two insertion orders of the sample SyncIds build the
identical trie. -/
theorem buildTrie_perm_witness :
    List.Perm [sampleId1, sampleId2] [sampleId2, sampleId1] ∧
    (∀ s ∈ [sampleId1, sampleId2], TIMESTAMP_LENGTH < s.length) ∧
    buildTrie [sampleId1, sampleId2] = .ok sampleTrie12 ∧
    buildTrie [sampleId2, sampleId1] = .ok sampleTrie12 ∧
    sampleTrie12 = sampleTrie12 ∧
    MerkleTrie.rootHashD sampleTrie12 = MerkleTrie.rootHashD sampleTrie12 := by
  have hp : List.Perm [sampleId1, sampleId2] [sampleId2, sampleId1] :=
    List.Perm.swap sampleId2 sampleId1 []
  have hl : ∀ s ∈ [sampleId1, sampleId2], TIMESTAMP_LENGTH < s.length := by decide
  have h1 : buildTrie [sampleId1, sampleId2] = .ok sampleTrie12 := by rfl
  have h2 : buildTrie [sampleId2, sampleId1] = .ok sampleTrie12 := by rfl
  obtain ⟨hT, hH, hI⟩ := buildTrie_perm [sampleId1, sampleId2]
    [sampleId2, sampleId1] hp hl sampleTrie12 sampleTrie12 h1 h2
  exact ⟨hp, hl, h1, h2, hT, hH⟩
